import Mathlib

/-!
# Verification of the multichase pointer-chase generator

A shallow embedding of the core algorithms of google/multichase:

* `permutation.h` / `permutation.c` : the RNG bound, the inside-out
  Fisher–Yates permutation generator, the bitset-based permutation
  verifier, the mixer table, and the chase graph builder;
* `src/unnamed/part_001` : the inverse-permutation variant of the chase
  graph builder;
* `src/unnamed/part_005` : the historical floating-point `rng_int`;
* `multichase.c` / `multiload.c` : the worker counter loop and the
  size sanity-adjustment in `main`;
* `asm.c` / `br_asm.c` : the x86_64 branch-chase rewriter.

Machine integers are modelled as `Nat` with explicit `% 2^w` where
wrap-around matters.  The arena is modelled as a map from byte offsets
(relative to `args->arena`) to stored pointer values; one cell holds one
pointer.  Fallible or undefined-behaviour paths return `Option`.
-/

namespace Multichase

/-! ## A generic fold of keyed writes

Both chase builders, the inverse-permutation construction and the bitset
filling loop are `for` loops performing `f[key i] = val i` for
`i = 0 .. n-1`.  `updFold` is that loop, on maps represented as
functions. -/

/-- `for (i = 0; i < n; ++i) f[key i] = val i;` on a map `ℕ → α`. -/
def updFold {α : Type} (n : ℕ) (key : ℕ → ℕ) (val : ℕ → α) (init : ℕ → α) : ℕ → α :=
  (List.range n).foldl (fun f i => fun x => if x = key i then val i else f x) init

theorem updFold_zero {α : Type} (key : ℕ → ℕ) (val : ℕ → α) (init : ℕ → α) :
    updFold 0 key val init = init := rfl

theorem updFold_succ {α : Type} (n : ℕ) (key : ℕ → ℕ) (val : ℕ → α) (init : ℕ → α) :
    updFold (n + 1) key val init =
      fun x => if x = key n then val n else updFold n key val init x := by
  unfold updFold
  rw [List.range_succ, List.foldl_append]
  rfl

/-- A cell not written by any iteration keeps its initial value. -/
theorem updFold_not_written {α : Type} (n : ℕ) (key : ℕ → ℕ) (val : ℕ → α)
    (init : ℕ → α) (x : ℕ) (hx : ∀ i, i < n → x ≠ key i) :
    updFold n key val init x = init x := by
  induction n with
  | zero => rfl
  | succ n ih =>
    rw [updFold_succ]
    simp only [hx n (Nat.lt_succ_self n), if_false]
    exact ih (fun i hi => hx i (Nat.lt_succ_of_lt hi))

/-- When the written keys are pairwise distinct, iteration `i` determines
the final value of cell `key i`. -/
theorem updFold_written {α : Type} (n : ℕ) (key : ℕ → ℕ) (val : ℕ → α)
    (init : ℕ → α) (i : ℕ) (hi : i < n)
    (hinj : ∀ a, a < n → ∀ b, b < n → key a = key b → a = b) :
    updFold n key val init (key i) = val i := by
  induction n with
  | zero => omega
  | succ n ih =>
    rw [updFold_succ]
    by_cases h : i = n
    · subst h; simp
    · have hi' : i < n := by omega
      have hne : key i ≠ key n := fun he =>
        h (hinj i (by omega) n (Nat.lt_succ_self n) he)
      simp only [hne, if_false]
      exact ih hi' (fun a ha b hb he => hinj a (by omega) b (by omega) he)

/-! ## RNG (`permutation.h` and `src/unnamed/part_005`)

`random_r` produces draws in `[0, RAND_MAX]` with `RAND_MAX = 2^31 - 1`.
The post-processing into a bounded sample exists in two historical
forms, both modelled below. -/

/-- glibc `RAND_MAX`. -/
def RAND_MAX : ℕ := 2147483647

/-- The 64-bit assembly of four draws in `permutation.h` `rng_int`:
`r = (r1 & 0xFFFF) | ((r2 << 16) & 0xFFFF0000) | ((r3 << 32) & 0xFFFF00000000)
   | ((r4 << 48) & 0xFFFF000000000000)`. -/
def rng_assemble (r1 r2 r3 r4 : ℕ) : ℕ :=
  (r1 &&& 0x000000000000FFFF) |||
  ((r2 <<< 16) &&& 0x00000000FFFF0000) |||
  ((r3 <<< 32) &&& 0x0000FFFF00000000) |||
  ((r4 <<< 48) &&& 0xFFFF000000000000)

/-- `permutation.h` `rng_int`: the assembled 64-bit value reduced by
`r % (limit + 1)`. -/
def rng_int (r1 r2 r3 r4 limit : ℕ) : ℕ :=
  rng_assemble r1 r2 r3 r4 % (limit + 1)

/-- `src/unnamed/part_005` `rng_int`: `(perm_t)((limit + 1) * (r * 1.0 / RAND_MAX))`.
The binary64 arithmetic is modelled exactly over `ℚ` followed by the C
truncating cast; at the inputs we evaluate it on (`r = RAND_MAX`, so the
quotient is exactly `1.0`, and small `limit`) every binary64 operation
involved is exact, so the `ℚ` model agrees with the double computation. -/
def rng_int_float (r limit : ℕ) : ℕ :=
  Int.toNat ⌊((limit : ℚ) + 1) * ((r : ℚ) / (RAND_MAX : ℚ))⌋

/-- The integer form always stays within the contract interval. -/
theorem rng_int_le (r1 r2 r3 r4 limit : ℕ) : rng_int r1 r2 r3 r4 limit ≤ limit :=
  Nat.lt_succ_iff.mp (Nat.mod_lt _ (Nat.succ_pos limit))

/-! ## The worker counter loop (`multichase.c` / `multiload.c` `chase_simple`)

`unsigned count` is a 32-bit counter; the worker's loop condition is
`__sync_add_and_fetch(&t->x.count, 200)`, i.e. the value of `count`
after adding the unroll factor 200, mod `2^32`.  The sampler's only
write is an atomic swap with zero. -/

/-- One `__sync_add_and_fetch(&count, 200)` on the 32-bit `count`. -/
def chase_count_add (c : ℕ) : ℕ := (c + 200) % 2 ^ 32

/-- The sampler's atomic swap writes zero into `count`. -/
def sampler_swap : ℕ := 0

theorem chase_count_add_iterate (n c : ℕ) (hc : c < 2 ^ 32) :
    chase_count_add^[n] c = (c + 200 * n) % 2 ^ 32 := by
  induction n generalizing c with
  | zero => simpa using (Nat.mod_eq_of_lt hc).symm
  | succ n ih =>
    rw [Function.iterate_succ_apply, ih (chase_count_add c) (Nat.mod_lt _ (by norm_num)),
      chase_count_add, Nat.mod_add_mod]
    congr 1
    ring

/-! ## Sanity adjustment of sizes (`multichase.c` / `multiload.c` `main`)

The block after the usage check rewrites `tlb_locality` and
`total_memory`; it has no failure path. -/

/-- The first `if`/`else` of the sanity block:
`if (tlb_locality < stride) tlb_locality = stride;
 else tlb_locality -= tlb_locality % stride;`. -/
def sanitize_tlb (stride tlb_locality : ℕ) : ℕ :=
  if tlb_locality < stride then stride else tlb_locality - tlb_locality % stride

/-- The second `if`/`else` of the sanity block, acting on the already
adjusted `tlb_locality`: when `total_memory < tlb_locality`,
`total_memory` is adjusted against `stride` and `tlb_locality` is set to
it; otherwise `total_memory -= total_memory % tlb_locality;`.  Result is
the pair `(tlb_locality, total_memory)`. -/
def sanitize_tm (stride tlb_locality total_memory : ℕ) : ℕ × ℕ :=
  if total_memory < tlb_locality then
    (sanitize_tlb stride total_memory, sanitize_tlb stride total_memory)
  else
    (tlb_locality, total_memory - total_memory % tlb_locality)

/-- The whole "ensure some sanity in the various arguments" block.
Input and output are `(tlb_locality, total_memory)`; `stride` is already
known to be at least `sizeof(void*)`.  (The `tm`-adjustment inside the
`total_memory < tlb_locality` branch is literally the same
`if`-raise-or-round-down pattern as the `tlb` adjustment, so it is
expressed through `sanitize_tlb` as well.) -/
def sanitize_sizes (stride tlb_locality total_memory : ℕ) : ℕ × ℕ :=
  sanitize_tm stride (sanitize_tlb stride tlb_locality) total_memory

/-- Rounding `x` down to a multiple of `d` (the `x -= x % d` idiom):
the result is a multiple of `d`, and still at least `d` when `x` was. -/
theorem round_down_spec (d x : ℕ) (hd : 0 < d) :
    (x - x % d) % d = 0 ∧ (d ≤ x → d ≤ x - x % d) := by
  have hdm := Nat.div_add_mod x d
  have heq : x - x % d = d * (x / d) := by omega
  refine ⟨by rw [heq]; exact Nat.mul_mod_right d _, fun hx => ?_⟩
  rw [heq]
  calc d = d * 1 := (Nat.mul_one d).symm
    _ ≤ d * (x / d) := Nat.mul_le_mul_left d ((Nat.one_le_div_iff hd).mpr hx)

/-- When `d ≤ x < 2 * d`, the `x -= x % d` idiom yields exactly `d`. -/
theorem round_down_eq_of_lt_two (d x : ℕ) (hd : 0 < d) (hle : d ≤ x) (hlt : x < 2 * d) :
    x - x % d = d := by
  have h1 : x % d = x - d := by
    rw [Nat.mod_eq_sub_mod hle, Nat.mod_eq_of_lt (by omega)]
  omega

/-- C10: for any configuration with `stride ≥ sizeof(void*)` and positive
`total_memory` and `tlb_locality`, the sanity-adjustment block of `main`
(a total function, with no rejection path) rewrites the sizes so that
afterwards `tlb_locality ≥ stride`, `tlb_locality % stride == 0`,
`total_memory % tlb_locality == 0` and `total_memory ≥ stride`; and a
requested `tlb_locality` exceeding `total_memory` comes out equal to the
adjusted `total_memory`. -/
theorem main_sanitize_adjustment (stride tlb tm tlb' tm' : ℕ)
    (hs : 8 ≤ stride) (htlb : 0 < tlb) (htm : 0 < tm)
    (h : sanitize_sizes stride tlb tm = (tlb', tm')) :
    stride ≤ tlb' ∧ tlb' % stride = 0 ∧ tm' % tlb' = 0 ∧ stride ≤ tm' ∧
      (tm < tlb → tlb' = tm') := by
  have hs0 : 0 < stride := by omega
  -- the phase-1 result is a multiple of stride, at least stride
  have tlb1 : ∀ y, 0 < y → stride ≤ sanitize_tlb stride y ∧ sanitize_tlb stride y % stride = 0 := by
    intro y _
    unfold sanitize_tlb
    split
    · exact ⟨le_refl stride, Nat.mod_self stride⟩
    · rename_i hy
      have := round_down_spec stride y hs0
      exact ⟨this.2 (le_of_not_lt hy), this.1⟩
  obtain ⟨ht1le, ht1mod⟩ := tlb1 tlb htlb
  obtain ⟨htmle, htmmod⟩ := tlb1 tm htm
  unfold sanitize_sizes sanitize_tm at h
  split at h
  · -- total_memory < adjusted tlb_locality: both outputs are sanitize_tlb stride tm
    obtain ⟨rfl, rfl⟩ := Prod.mk.injEq .. ▸ h
    exact ⟨htmle, htmmod, Nat.mod_self _, htmle, fun _ => rfl⟩
  · -- total_memory ≥ adjusted tlb_locality: round total_memory down to it
    rename_i hge
    obtain ⟨rfl, rfl⟩ := Prod.mk.injEq .. ▸ h
    have h0 : 0 < sanitize_tlb stride tlb := lt_of_lt_of_le hs0 ht1le
    have hrd := round_down_spec (sanitize_tlb stride tlb) tm h0
    refine ⟨ht1le, ht1mod, hrd.1, le_trans ht1le (hrd.2 (le_of_not_lt hge)), fun hlt => ?_⟩
    -- requested tlb_locality exceeded total_memory: show tm rounds down to exactly tlb'
    have hnl : ¬ tlb < stride := by
      intro hc
      exact hge (lt_of_lt_of_le hlt (by unfold sanitize_tlb; rw [if_pos hc]; omega))
    have hmod_lt : tlb % stride < stride := Nat.mod_lt _ hs0
    have htlbval : sanitize_tlb stride tlb = tlb - tlb % stride := by
      unfold sanitize_tlb; rw [if_neg hnl]
    have h2d : tm < 2 * sanitize_tlb stride tlb := by
      rw [htlbval]
      omega
    exact (round_down_eq_of_lt_two _ tm h0 (le_of_not_lt hge) h2d).symm

/-- Witness for `main_sanitize_adjustment`: `stride = 8`,
`tlb_locality = 1000000`, `total_memory = 300` is rewritten to
`(296, 296)` and satisfies every postcondition. -/
theorem main_sanitize_adjustment_witness :
    (8 ≤ 8 ∧ 0 < 1000000 ∧ 0 < 300 ∧ sanitize_sizes 8 1000000 300 = (296, 296)) ∧
      (8 ≤ 296 ∧ 296 % 8 = 0 ∧ 296 % 296 = 0 ∧ 8 ≤ 296 ∧ (300 < 1000000 → 296 = 296)) :=
  ⟨⟨by decide, by decide, by decide, by decide⟩,
    main_sanitize_adjustment 8 1000000 300 296 296 (by decide) (by decide) (by decide)
      (by decide)⟩

/-- C6: the historical floating-point `rng_int` of `src/unnamed/part_005`
violates the `[0, limit]` contract: when `random_r` draws
`r = RAND_MAX`, the factor `r * 1.0 / RAND_MAX` is exactly `1.0` (not in
`[0, 1)` as the code's comment assumes), so `rng_int(1)` returns
`limit + 1 = 2`.  (The integer form of `permutation.h` does satisfy the
contract: `rng_int_le` above.)  Every binary64 operation in this
evaluation is exact, so the `ℚ` model coincides with the C computation. -/
theorem rng_int_float_exceeds_limit : rng_int_float 2147483647 1 = 2 := by
  have h : ((2147483647 : ℕ) : ℚ) / ((RAND_MAX : ℕ) : ℚ) = 1 := by
    rw [div_eq_one_iff_eq] <;> norm_num [RAND_MAX]
  rw [rng_int_float, h]
  norm_num
  rfl

/-- C8 counterexample: the worker's `do`-`while` loop *can* terminate.
Starting from a freshly swapped (zero) 32-bit `count`, a run of `2^29`
consecutive `__sync_add_and_fetch(&count, 200)` operations with no
intervening sampler swap makes the final add-and-fetch return
`200 * 2^29 mod 2^32 = 0`, so the loop condition is false and control
reaches the code after the loop — refuting the claim that `count` never
returns zero under every interleaving. -/
theorem chase_simple_loop_can_exit : chase_count_add^[536870912] sampler_swap = 0 := by
  rw [sampler_swap, chase_count_add_iterate 536870912 0 (by norm_num)]
  norm_num

/-- C8 (amended): an add-and-fetch of the unroll factor 200 returns zero
exactly when the number of additions since `count` was last zero is a
multiple of `2^29`; hence under any interleaving in which the sampler's
swap-to-zero intervenes at least once every `2^29 - 1` additions, the
worker's loop never exits, but `2^29` consecutive unswapped additions do
terminate it. -/
theorem chase_count_add_zero_iff (n : ℕ) :
    chase_count_add^[n] sampler_swap = 0 ↔ 2 ^ 29 ∣ n := by
  rw [sampler_swap, chase_count_add_iterate n 0 (by norm_num), Nat.zero_add]
  constructor
  · intro h
    have hdvd : 2 ^ 32 ∣ 200 * n := Nat.dvd_iff_mod_eq_zero.mpr h
    have h8 : (8 : ℕ) * 2 ^ 29 ∣ 8 * (25 * n) := by
      have e1 : (2 : ℕ) ^ 32 = 8 * 2 ^ 29 := by norm_num
      have e2 : 200 * n = 8 * (25 * n) := by ring
      rwa [e1, e2] at hdvd
    have h29 : 2 ^ 29 ∣ 25 * n := (mul_dvd_mul_iff_left (by norm_num : (8:ℕ) ≠ 0)).mp h8
    exact (Nat.Coprime.dvd_of_dvd_mul_left (by norm_num) h29)
  · rintro ⟨k, rfl⟩
    have : 200 * (2 ^ 29 * k) = 2 ^ 32 * (25 * k) := by ring
    rw [this, Nat.mul_mod_right]

/-! ## The inside-out Fisher–Yates generator (`permutation.c`)

`gen_random_permutation(perm, nr, base)` runs, for `i = 0 .. nr-1`:
`t = rng_int(i); perm[i] = perm[t]; perm[t] = base + i;`.
The RNG is abstracted as the sequence `ts` of its draws (`ts i` is the
value `rng_int(i)` returned at iteration `i`; the integer `rng_int`
guarantees `ts i ≤ i`, see `rng_int_le`).  The malloc'd array is
modelled as a total map initialised with 0; when `ts i ≤ i` an
uninitialised cell is only ever read at `t = i`, where the C code
immediately overwrites the value it copied, so the initial contents are
unobservable and the model is faithful. -/

/-- One loop body: `perm[i] = perm[t]; perm[t] = base + i;`. -/
def fy_step (f : ℕ → ℕ) (i t base : ℕ) : ℕ → ℕ :=
  fun j => if j = t then base + i else if j = i then f t else f j

/-- `gen_random_permutation` after `nr` iterations. -/
def gen_random_permutation (ts : ℕ → ℕ) (base : ℕ) : ℕ → (ℕ → ℕ)
  | 0 => fun _ => 0
  | n + 1 => fy_step (gen_random_permutation ts base n) n (ts n) base

/-- The first `nr` cells of the generated array are exactly
`{base, …, base + nr - 1}` (in particular they are pairwise distinct:
the image of a set of `nr` indices has `nr` elements). -/
theorem gen_random_permutation_image (ts : ℕ → ℕ) (base : ℕ) (nr : ℕ)
    (hts : ∀ i, i < nr → ts i ≤ i) :
    Finset.image (gen_random_permutation ts base nr) (Finset.range nr)
      = Finset.Ico base (base + nr) := by
  induction nr with
  | zero => simp
  | succ n ih =>
    have ht : ts n ≤ n := hts n (Nat.lt_succ_self n)
    have hprev := ih (fun i hi => hts i (Nat.lt_succ_of_lt hi))
    have hg : ∀ j, j < n → base ≤ gen_random_permutation ts base n j ∧
        gen_random_permutation ts base n j < base + n := by
      intro j hj
      have : gen_random_permutation ts base n j ∈ Finset.Ico base (base + n) := by
        rw [← hprev]
        exact Finset.mem_image_of_mem _ (Finset.mem_range.mpr hj)
      simpa using this
    ext a
    simp only [Finset.mem_image, Finset.mem_range, Finset.mem_Ico]
    constructor
    · rintro ⟨j, hj, rfl⟩
      show base ≤ fy_step _ n (ts n) base j ∧ fy_step _ n (ts n) base j < base + (n + 1)
      unfold fy_step
      by_cases hjt : j = ts n
      · rw [if_pos hjt]; omega
      · rw [if_neg hjt]
        by_cases hjn : j = n
        · rw [if_pos hjn]
          have htn : ts n < n := by omega
          have := hg (ts n) htn
          omega
        · rw [if_neg hjn]
          have := hg j (by omega)
          omega
    · intro ha
      by_cases hlast : a = base + n
      · refine ⟨ts n, by omega, ?_⟩
        show fy_step _ n (ts n) base (ts n) = a
        unfold fy_step
        rw [if_pos rfl, hlast]
      · have : a ∈ Finset.Ico base (base + n) := by
          simp only [Finset.mem_Ico]; omega
        rw [← hprev] at this
        obtain ⟨j, hj, hja⟩ := Finset.mem_image.mp this
        rw [Finset.mem_range] at hj
        by_cases hjt : j = ts n
        · refine ⟨n, Nat.lt_succ_self n, ?_⟩
          show fy_step _ n (ts n) base n = a
          unfold fy_step
          have hnt : n ≠ ts n := by omega
          rw [if_neg hnt, if_pos rfl, ← hjt, hja]
        · refine ⟨j, by omega, ?_⟩
          show fy_step _ n (ts n) base j = a
          unfold fy_step
          rw [if_neg hjt, if_neg (by omega : j ≠ n), hja]

/-! ## The bitset permutation verifier (`permutation.c` `is_a_permutation`)

The C function allocates a bitset `vec` of `vec_len = (nr_elts + 7) / 8`
bytes and indexes it at `perm[i] / 8`.  The byte array is modelled as a
map `ℕ → ℕ`; an access at an index `≥ vec_len` is out of bounds
(undefined behaviour), modelled as `none`.  `some none` models the early
`return 0` on a duplicate bit; `some (some vec)` is normal completion of
the filling loop. -/

/-- The filling loop of `is_a_permutation`:
`vec_elt = perm[i] / 8; test_bit = 1 << (perm[i] % 8);
 if (vec[vec_elt] & test_bit) return 0; vec[vec_elt] |= test_bit;`. -/
def isap_fill (p : ℕ → ℕ) (vlen : ℕ) : List ℕ → (ℕ → ℕ) → Option (Option (ℕ → ℕ))
  | [], vec => some (some vec)
  | i :: rest, vec =>
    if p i / 8 < vlen then
      if vec (p i / 8) &&& (1 <<< (p i % 8)) ≠ 0 then some none
      else isap_fill p vlen rest
        (fun k => if k = p i / 8 then vec (p i / 8) ||| (1 <<< (p i % 8)) else vec k)
    else none

/-- `is_a_permutation(perm, nr_elts)`: fill the bitset, then check that
the first `nr_elts / 8` bytes are `0xff` and, when `nr_elts % 8 != 0`,
that the final byte equals `(1 << (nr_elts % 8)) - 1`.  `none` = an
out-of-bounds bitset access occurred; `some b` = the C return value. -/
def is_a_permutation (p : ℕ → ℕ) (nr_elts : ℕ) : Option Bool :=
  match isap_fill p ((nr_elts + 7) / 8) (List.range nr_elts) (fun _ => 0) with
  | none => none
  | some none => some false
  | some (some vec) =>
    if (List.range (nr_elts / 8)).all (fun i => vec i == 0xff) then
      if nr_elts % 8 ≠ 0 then
        if vec ((nr_elts + 7) / 8 - 1) = (1 <<< (nr_elts % 8)) - 1 then some true
        else some false
      else some true
    else some false

/-- `x & (1 << b)` is nonzero exactly when bit `b` of `x` is set. -/
theorem and_one_shiftLeft_ne_zero (x b : ℕ) : x &&& 1 <<< b ≠ 0 ↔ x.testBit b = true := by
  rw [Nat.shiftLeft_eq, one_mul]
  constructor
  · intro h
    obtain ⟨i, hi⟩ := Nat.ne_zero_implies_bit_true h
    rw [Nat.testBit_and, Nat.testBit_two_pow] at hi
    rcases Bool.and_eq_true_iff.mp hi with ⟨hx, hb⟩
    have hbi : b = i := of_decide_eq_true hb
    rwa [hbi]
  · intro h hzero
    have hb : (x &&& 2 ^ b).testBit b = true := by
      rw [Nat.testBit_and, h, Nat.testBit_two_pow]
      simp
    rw [hzero] at hb
    simp [Nat.zero_testBit] at hb

/-- Invariant of the filling loop: when the values `p i` of the
remaining indices are in range, fresh, and pairwise distinct, the loop
completes, and the final bitset represents exactly the old set plus the
new values. -/
theorem isap_fill_spec (p : ℕ → ℕ) (vlen : ℕ) (l : List ℕ) (vec : ℕ → ℕ) (S : ℕ → Prop)
    (hrepr : ∀ k b, (vec k).testBit b = true ↔ b < 8 ∧ S (8 * k + b))
    (hbound : ∀ i ∈ l, p i < 8 * vlen)
    (hfresh : ∀ i ∈ l, ¬ S (p i))
    (hnodup : (l.map p).Nodup) :
    ∃ vec', isap_fill p vlen l vec = some (some vec') ∧
      ∀ k b, (vec' k).testBit b = true ↔ b < 8 ∧ (S (8 * k + b) ∨ (8 * k + b) ∈ l.map p) := by
  induction l generalizing vec S with
  | nil =>
    exact ⟨vec, rfl, fun k b => by simpa using hrepr k b⟩
  | cons i rest ih =>
    have hpi : p i < 8 * vlen := hbound i (List.mem_cons_self i rest)
    have hdiv : p i / 8 < vlen := Nat.div_lt_of_lt_mul (by omega)
    have hsplit : 8 * (p i / 8) + p i % 8 = p i := by omega
    have hm8 : p i % 8 < 8 := Nat.mod_lt _ (by norm_num)
    have htest : ¬ (vec (p i / 8) &&& 1 <<< (p i % 8) ≠ 0) := by
      rw [and_one_shiftLeft_ne_zero, hrepr, hsplit]
      exact fun hc => hfresh i (List.mem_cons_self i rest) hc.2
    rw [isap_fill, if_pos hdiv, if_neg htest]
    -- the updated bitset represents insert (p i) S
    have hrepr' : ∀ k b,
        ((fun k => if k = p i / 8 then vec (p i / 8) ||| 1 <<< (p i % 8) else vec k) k).testBit b
          = true ↔ b < 8 ∧ (fun x => S x ∨ x = p i) (8 * k + b) := by
      intro k b
      simp only []
      by_cases hk : k = p i / 8
      · subst hk
        rw [if_pos rfl, Nat.shiftLeft_eq, one_mul, Nat.testBit_or, Nat.testBit_two_pow]
        constructor
        · intro h
          rcases Bool.or_eq_true_iff.mp h with h | h
          · obtain ⟨hb8, hS⟩ := (hrepr _ b).mp h
            exact ⟨hb8, Or.inl hS⟩
          · have : p i % 8 = b := of_decide_eq_true h
            exact ⟨by omega, Or.inr (by omega)⟩
        · rintro ⟨hb8, hS | he⟩
          · rw [(hrepr _ b).mpr ⟨hb8, hS⟩, Bool.true_or]
          · have : p i % 8 = b := by omega
            rw [this]
            simp
      · rw [if_neg hk, hrepr]
        have hnp : 8 * k + b = p i → b < 8 → False := by
          intro he hb8
          exact hk (by omega)
        constructor
        · rintro ⟨hb8, hS⟩; exact ⟨hb8, Or.inl hS⟩
        · rintro ⟨hb8, hS | he⟩
          · exact ⟨hb8, hS⟩
          · exact absurd hb8 (fun hb => hnp he hb)
    have hnodup' : (rest.map p).Nodup := (List.nodup_cons.mp hnodup).2
    have hni : p i ∉ rest.map p := (List.nodup_cons.mp hnodup).1
    obtain ⟨vec', hrun, hrepr''⟩ :=
      ih (fun k => if k = p i / 8 then vec (p i / 8) ||| 1 <<< (p i % 8) else vec k)
        (fun x => S x ∨ x = p i) hrepr'
        (fun j hj => hbound j (List.mem_cons_of_mem _ hj))
        (fun j hj hSj => by
          rcases hSj with hS | he
          · exact hfresh j (List.mem_cons_of_mem _ hj) hS
          · exact hni (he ▸ List.mem_map_of_mem p hj))
        hnodup'
    refine ⟨vec', hrun, fun k b => ?_⟩
    rw [hrepr'' k b]
    simp only [List.map_cons, List.mem_cons]
    tauto

/-- For an array whose first `nr` cells are exactly `{0, …, nr-1}`, the
verifier completes with every bitset access in bounds and returns 1. -/
theorem is_a_permutation_true_of_image (p : ℕ → ℕ) (nr : ℕ)
    (himg : Finset.image p (Finset.range nr) = Finset.range nr) :
    is_a_permutation p nr = some true := by
  have hbound : ∀ i, i < nr → p i < nr := by
    intro i hi
    have : p i ∈ Finset.range nr :=
      himg ▸ Finset.mem_image_of_mem p (Finset.mem_range.mpr hi)
    exact Finset.mem_range.mp this
  have hinj : Set.InjOn p (Finset.range nr) := by
    apply Finset.card_image_iff.mp
    rw [himg]
  have hnodup : ((List.range nr).map p).Nodup := by
    refine List.Nodup.map_on ?_ (List.nodup_range nr)
    intro x hx y hy hxy
    exact hinj (by simpa using List.mem_range.mp hx) (by simpa using List.mem_range.mp hy) hxy
  have hmem : ∀ x, x ∈ (List.range nr).map p ↔ x < nr := by
    intro x
    constructor
    · intro hx
      obtain ⟨i, hi, rfl⟩ := List.mem_map.mp hx
      exact hbound i (List.mem_range.mp hi)
    · intro hx
      have : x ∈ Finset.image p (Finset.range nr) := by
        rw [himg]; exact Finset.mem_range.mpr hx
      obtain ⟨i, hi, hpi⟩ := Finset.mem_image.mp this
      exact List.mem_map.mpr ⟨i, List.mem_range.mpr (Finset.mem_range.mp hi), hpi⟩
  obtain ⟨vec', hrun, hrepr⟩ := isap_fill_spec p ((nr + 7) / 8) (List.range nr)
      (fun _ => 0) (fun _ => False)
      (fun k b => by simp [Nat.zero_testBit])
      (fun i hi => by have := hbound i (List.mem_range.mp hi); omega)
      (fun i hi h => h)
      hnodup
  have hbit : ∀ k b, (vec' k).testBit b = true ↔ b < 8 ∧ 8 * k + b < nr := by
    intro k b
    rw [hrepr k b]
    constructor
    · rintro ⟨hb, h⟩
      rcases h with h | h
      · exact absurd h not_false
      · exact ⟨hb, (hmem _).mp h⟩
    · rintro ⟨hb, h⟩
      exact ⟨hb, Or.inr ((hmem _).mpr h)⟩
  have hfull : ∀ k, k < nr / 8 → vec' k = 255 := by
    intro k hk
    apply Nat.eq_of_testBit_eq
    intro j
    rw [show (255 : ℕ) = 2 ^ 8 - 1 by norm_num, Nat.testBit_two_pow_sub_one]
    by_cases hj : j < 8
    · rw [(hbit k j).mpr ⟨hj, by omega⟩, decide_eq_true hj]
    · have hfalse : ¬ (vec' k).testBit j = true := fun h => hj ((hbit k j).mp h).1
      rw [Bool.not_eq_true] at hfalse
      rw [hfalse]
      simp [hj]
  have hpart : nr % 8 ≠ 0 → vec' ((nr + 7) / 8 - 1) = 1 <<< (nr % 8) - 1 := by
    intro hr
    rw [Nat.shiftLeft_eq, one_mul]
    have hvl : (nr + 7) / 8 - 1 = nr / 8 := by omega
    rw [hvl]
    apply Nat.eq_of_testBit_eq
    intro j
    rw [Nat.testBit_two_pow_sub_one]
    by_cases hj : j < nr % 8
    · rw [(hbit _ j).mpr ⟨by omega, by omega⟩, decide_eq_true hj]
    · have hfalse : ¬ (vec' (nr / 8)).testBit j = true := fun h => by
        have := (hbit _ j).mp h
        omega
      rw [Bool.not_eq_true] at hfalse
      rw [hfalse]
      simp [hj]
  have hall : (List.range (nr / 8)).all (fun i => vec' i == 0xff) = true := by
    rw [List.all_eq_true]
    intro i hi
    have := hfull i (List.mem_range.mp hi)
    simp [this]
  rw [is_a_permutation, hrun]
  simp only [hall, if_true]
  by_cases hr : nr % 8 = 0
  · simp [hr]
  · simp [hr, hpart hr]

/-- C2: for every RNG whose draw at step `i` lies in `[0, i]` (which the
integer `rng_int` guarantees), the inside-out Fisher–Yates loop leaves
`perm` a bijection onto `{base, …, base + nr - 1}`; in particular for
`base = 0` the result passes `is_a_permutation`.  (Uniformity of the
distribution is a probabilistic property outside this model.) -/
theorem gen_random_permutation_is_permutation (ts : ℕ → ℕ) (nr base : ℕ)
    (_hnr : 0 < nr) (hts : ∀ i, i < nr → ts i ≤ i) :
    Finset.image (gen_random_permutation ts base nr) (Finset.range nr)
        = Finset.Ico base (base + nr) ∧
      (base = 0 → is_a_permutation (gen_random_permutation ts 0 nr) nr = some true) := by
  refine ⟨gen_random_permutation_image ts base nr hts, fun hb => ?_⟩
  apply is_a_permutation_true_of_image
  have h := gen_random_permutation_image ts 0 nr hts
  rwa [Nat.zero_add, ← Finset.range_eq_Ico] at h

/-- Witness for `gen_random_permutation_is_permutation` at `ts = 0`,
`nr = 3`, `base = 0`: the generated array is `[2, 0, 1]`. -/
theorem gen_random_permutation_is_permutation_witness :
    (0 < 3 ∧ ∀ i, i < 3 → (fun _ => 0 : ℕ → ℕ) i ≤ i) ∧
      (Finset.image (gen_random_permutation (fun _ => 0) 0 3) (Finset.range 3)
          = Finset.Ico 0 (0 + 3) ∧
        (0 = 0 → is_a_permutation (gen_random_permutation (fun _ => 0) 0 3) 3 = some true)) :=
  ⟨⟨by decide, fun i _ => Nat.zero_le i⟩,
    gen_random_permutation_is_permutation (fun _ => 0) 3 0 (by decide)
      (fun i _ => Nat.zero_le i)⟩

/-- C7 counterexample: the verifier is *not* correct for base-biased
permutations.  `gen_random_permutation` with `nr = 1`, `base = 1`
produces the array `[1]`, a bijection onto `{1}`; `is_a_permutation`
stays in bounds but returns 0 (the bit pattern check fails).  With
`base = 8` it produces `[8]` and the verifier indexes the one-byte
bitset at `perm[0]/8 = 1`, an out-of-bounds access (`none`). -/
theorem is_a_permutation_base_biased_fails :
    is_a_permutation (gen_random_permutation (fun _ => 0) 1 1) 1 = some false ∧
      is_a_permutation (gen_random_permutation (fun _ => 0) 8 1) 1 = none := by
  constructor <;> rfl

/-- C7 (amended): the bitset verifier is correct exactly for the
`base = 0` case: whenever the first `nr` cells of `p` are a bijection
onto `{0, …, nr-1}`, every bitset access of `is_a_permutation(p, nr)`
is in bounds (the result is not `none`) and it returns 1. -/
theorem is_a_permutation_base_zero (p : ℕ → ℕ) (nr : ℕ)
    (himg : Finset.image p (Finset.range nr) = Finset.range nr) :
    is_a_permutation p nr = some true :=
  is_a_permutation_true_of_image p nr himg

/-- Witness for `is_a_permutation_base_zero` on the 3-cycle `[2, 0, 1]`. -/
theorem is_a_permutation_base_zero_witness :
    (Finset.image (fun x => if x = 0 then 2 else if x = 1 then 0 else if x = 2 then 1 else x)
        (Finset.range 3) = Finset.range 3) ∧
      is_a_permutation
        (fun x => if x = 0 then 2 else if x = 1 then 0 else if x = 2 then 1 else x) 3
        = some true :=
  ⟨by decide, is_a_permutation_base_zero _ 3 (by decide)⟩

/-! ## Arithmetic helpers for block-structured indices -/

theorem block_div_mod (g r nept : ℕ) (hr : r < nept) :
    (g * nept + r) / nept = g ∧ (g * nept + r) % nept = r := by
  have hn : 0 < nept := by omega
  have h1 : (g * nept + r) / nept = g + r / nept := by
    rw [Nat.mul_comm, Nat.mul_add_div hn]
  have h3 : (g * nept + r) % nept = r % nept := by
    rw [Nat.mul_comm, Nat.mul_add_mod]
  exact ⟨by rw [h1, Nat.div_eq_of_lt hr, Nat.add_zero], by rw [h3, Nat.mod_eq_of_lt hr]⟩

theorem mod_succ_mod (a n : ℕ) : (a % n + 1) % n = (a + 1) % n := by
  conv_rhs => rw [Nat.add_mod]
  rw [Nat.add_mod (a % n) 1 n, Nat.mod_mod_of_dvd a dvd_rfl]

/-! ## The mixer table and the `MIXED` macro (`permutation.c`)

`generate_chase_mixer` draws, for each slot `i < nr_mixers`, a fresh
permutation `t_i` of `[0, nr_mixer_indices)` (the per-call outputs of
`gen_permutation(t, nr_mixer_indices, 0)` are abstracted as the family
`t : slot → position → value`) and stores it transposed:
`r[j * nr_mixers + i] = t_i[j]`.

`generate_chase` then uses the column
`mixer = args->mixer + mixer_idx * nr_mixers` through
`MIXED(x) = x * stride + mixer[x & (nr_mixers - 1)] * mixer_scale`
with `mixer_scale = stride / nr_mixer_indices`. -/

/-- The transposed mixer table `r` of `generate_chase_mixer`. -/
def generate_chase_mixer (nr_mixers : ℕ) (t : ℕ → ℕ → ℕ) : ℕ → ℕ :=
  fun idx => t (idx % nr_mixers) (idx / nr_mixers)

/-- The `MIXED` macro, with `mixer` the column for the current
`mixer_idx`: the byte offset (relative to `args->arena`) of the pointer
slot used for element `x`. -/
def MIXED (mixer : ℕ → ℕ) (nr_mixers stride mixer_scale x : ℕ) : ℕ :=
  x * stride + mixer (x &&& (nr_mixers - 1)) * mixer_scale

/-- A mixer value below `nr_mixer_indices` lands strictly inside the
stride: `v * (stride / nmi) < stride`. -/
theorem mixer_offset_lt (v nmi stride : ℕ) (hv : v < nmi) (hs : 0 < stride) :
    v * (stride / nmi) < stride := by
  rcases Nat.eq_zero_or_pos (stride / nmi) with h0 | hpos
  · rw [h0, Nat.mul_zero]; exact hs
  · have h2 : stride / nmi * nmi ≤ stride := Nat.div_mul_le_self stride nmi
    have h1 : (v + 1) * (stride / nmi) ≤ nmi * (stride / nmi) :=
      Nat.mul_le_mul_right _ (by omega)
    have h3 : (v + 1) * (stride / nmi) = v * (stride / nmi) + stride / nmi := by ring
    have h4 : nmi * (stride / nmi) = stride / nmi * nmi := Nat.mul_comm _ _
    linarith

/-- The pointer slot of element `x` lies inside element `x`'s
`stride`-byte range, so `MIXED x / stride` recovers `x`. -/
theorem MIXED_slot (mixer : ℕ → ℕ) (nr_mixers stride nmi x : ℕ)
    (hmixx : mixer (x &&& (nr_mixers - 1)) < nmi) (hs : 0 < stride) :
    x * stride ≤ MIXED mixer nr_mixers stride (stride / nmi) x ∧
      MIXED mixer nr_mixers stride (stride / nmi) x < (x + 1) * stride ∧
      MIXED mixer nr_mixers stride (stride / nmi) x / stride = x := by
  have hoff := mixer_offset_lt (mixer (x &&& (nr_mixers - 1))) nmi stride hmixx hs
  unfold MIXED
  refine ⟨Nat.le_add_right _ _, by linarith [show (x + 1) * stride = x * stride + stride by ring], ?_⟩
  have he : x * stride + mixer (x &&& (nr_mixers - 1)) * (stride / nmi)
      = stride * x + mixer (x &&& (nr_mixers - 1)) * (stride / nmi) := by ring
  rw [he, Nat.mul_add_div hs, Nat.div_eq_of_lt hoff, Nat.add_zero]

/-- `MIXED` is injective in the element index (slots of different
elements are disjoint). -/
theorem MIXED_inj (mixer : ℕ → ℕ) (nr_mixers stride nmi x1 x2 : ℕ)
    (h1 : mixer (x1 &&& (nr_mixers - 1)) < nmi) (h2 : mixer (x2 &&& (nr_mixers - 1)) < nmi)
    (hs : 0 < stride)
    (he : MIXED mixer nr_mixers stride (stride / nmi) x1
        = MIXED mixer nr_mixers stride (stride / nmi) x2) : x1 = x2 := by
  have d1 := (MIXED_slot mixer nr_mixers stride nmi x1 h1 hs).2.2
  have d2 := (MIXED_slot mixer nr_mixers stride nmi x2 h2 hs).2.2
  rw [← d1, ← d2, he]

/-! ## The chase graph builder (`permutation.c` `generate_chase`)

The RNG-driven permutations are abstracted by their outputs:
`tlb_perm` is the output of `gen_permutation(tlb_perm, nr_tlb_groups, 0)`
(hypothesis: a permutation of `[0, nr_tlb_groups)`), and `gperm g` is
the output of the `g`-th call
`gen_permutation(&perm[g * nr_elts_per_tlb], nr_elts_per_tlb,
tlb_perm[g] * nr_elts_per_tlb)` (hypothesis: its image is exactly the
biased interval, which `gen_random_permutation_image` establishes for
the real generator). -/

/-- `next = (i+1 == nr_elts) ? 0 : i+1;`. -/
def nextIdx (nr_elts i : ℕ) : ℕ := if i + 1 = nr_elts then 0 else i + 1

theorem nextIdx_mod (n j : ℕ) (hj : j < n) : nextIdx n j = (j + 1) % n := by
  unfold nextIdx
  split
  · rename_i h; rw [h, Nat.mod_self]
  · rename_i h; rw [Nat.mod_eq_of_lt (by omega)]

/-- The assembled `perm` array: cell `i` lives in segment `i / nr_elts_per_tlb`
and holds that segment's local permutation value. -/
def chase_perm (gperm : ℕ → ℕ → ℕ) (nr_elts_per_tlb : ℕ) : ℕ → ℕ :=
  fun i => gperm (i / nr_elts_per_tlb) (i % nr_elts_per_tlb)

/-- The threading loop of `generate_chase` (forward-link form of
`src/permutation.c`):
`for i in [0, nr_elts): *(arena + MIXED(perm[i])) = arena + MIXED(perm[next]);`.
The arena is a map from byte offsets to stored pointer offsets; `none`
marks cells never written by the loop. -/
def generate_chase_mem (mixer : ℕ → ℕ) (nr_mixers stride mixer_scale nr_elts : ℕ)
    (perm : ℕ → ℕ) : ℕ → Option ℕ :=
  updFold nr_elts (fun i => MIXED mixer nr_mixers stride mixer_scale (perm i))
    (fun i => some (MIXED mixer nr_mixers stride mixer_scale (perm (nextIdx nr_elts i))))
    (fun _ => none)

/-- `generate_chase`'s return value `arena + MIXED(0)`, as an offset. -/
def generate_chase_head (mixer : ℕ → ℕ) (nr_mixers stride mixer_scale : ℕ) : ℕ :=
  MIXED mixer nr_mixers stride mixer_scale 0

/-- The pointer chase itself: the address reached after `k` dependent
loads from `a0` (`none` once a load touches an unwritten cell). -/
def chaseSeq (mem : ℕ → Option ℕ) (a0 : ℕ) : ℕ → Option ℕ
  | 0 => some a0
  | k + 1 => (chaseSeq mem a0 k).bind mem

/-- The assembled `perm` is a permutation of `[0, nr_tlb_groups * nr_elts_per_tlb)`. -/
theorem chase_perm_image (tlb_perm : ℕ → ℕ) (gperm : ℕ → ℕ → ℕ) (ntg nept : ℕ)
    (hnept : 0 < nept)
    (htlb : Finset.image tlb_perm (Finset.range ntg) = Finset.range ntg)
    (hg : ∀ g, g < ntg → Finset.image (gperm g) (Finset.range nept)
        = Finset.Ico (tlb_perm g * nept) (tlb_perm g * nept + nept)) :
    Finset.image (chase_perm gperm nept) (Finset.range (ntg * nept))
      = Finset.range (ntg * nept) := by
  have htlb_lt : ∀ g, g < ntg → tlb_perm g < ntg := by
    intro g hgn
    have : tlb_perm g ∈ Finset.range ntg :=
      htlb ▸ Finset.mem_image_of_mem _ (Finset.mem_range.mpr hgn)
    exact Finset.mem_range.mp this
  ext a
  simp only [Finset.mem_image, Finset.mem_range]
  constructor
  · rintro ⟨i, hi, rfl⟩
    have hgdiv : i / nept < ntg := (Nat.div_lt_iff_lt_mul hnept).mpr hi
    have hval : chase_perm gperm nept i ∈ Finset.Ico (tlb_perm (i / nept) * nept)
        (tlb_perm (i / nept) * nept + nept) := by
      rw [← hg _ hgdiv]
      exact Finset.mem_image_of_mem _ (Finset.mem_range.mpr (Nat.mod_lt i hnept))
    rw [Finset.mem_Ico] at hval
    have hw := htlb_lt _ hgdiv
    have : (tlb_perm (i / nept) + 1) * nept ≤ ntg * nept :=
      Nat.mul_le_mul_right _ (by omega)
    have he : (tlb_perm (i / nept) + 1) * nept = tlb_perm (i / nept) * nept + nept := by ring
    linarith
  · intro ha
    have hw : a / nept < ntg := (Nat.div_lt_iff_lt_mul hnept).mpr ha
    have : a / nept ∈ Finset.image tlb_perm (Finset.range ntg) := by
      rw [htlb]; exact Finset.mem_range.mpr hw
    obtain ⟨g, hgmem, hgw⟩ := Finset.mem_image.mp this
    rw [Finset.mem_range] at hgmem
    have hmema : a ∈ Finset.image (gperm g) (Finset.range nept) := by
      rw [hg g hgmem, Finset.mem_Ico, hgw]
      have hle : a / nept * nept ≤ a := Nat.div_mul_le_self a nept
      have hdm := Nat.div_add_mod a nept
      have hml : a % nept < nept := Nat.mod_lt a hnept
      constructor
      · exact hle
      · have : nept * (a / nept) = a / nept * nept := Nat.mul_comm _ _
        linarith
    obtain ⟨r, hrmem, hra⟩ := Finset.mem_image.mp hmema
    rw [Finset.mem_range] at hrmem
    refine ⟨g * nept + r, ?_, ?_⟩
    · have : (g + 1) * nept ≤ ntg * nept := Nat.mul_le_mul_right _ (by omega)
      have he : (g + 1) * nept = g * nept + nept := by ring
      omega
    · obtain ⟨hdiv, hmod⟩ := block_div_mod g r nept hrmem
      rw [chase_perm]
      rw [hdiv, hmod, hra]

/-- The memory built by the threading loop holds, at the slot of element
`perm i`, a pointer to the slot of element `perm (next i)`. -/
theorem generate_chase_mem_at (mixer : ℕ → ℕ) (nr_mixers stride nmi nr_elts : ℕ)
    (perm : ℕ → ℕ) (i : ℕ) (hi : i < nr_elts)
    (hs : 0 < stride) (hmix : ∀ s, mixer s < nmi)
    (hpinj : ∀ a, a < nr_elts → ∀ b, b < nr_elts → perm a = perm b → a = b) :
    generate_chase_mem mixer nr_mixers stride (stride / nmi) nr_elts perm
        (MIXED mixer nr_mixers stride (stride / nmi) (perm i))
      = some (MIXED mixer nr_mixers stride (stride / nmi) (perm (nextIdx nr_elts i))) := by
  unfold generate_chase_mem
  exact updFold_written nr_elts _ _ _ i hi
    (fun a ha b hb he => hpinj a ha b hb
      (MIXED_inj mixer nr_mixers stride nmi _ _ (hmix _) (hmix _) hs he))

/-- Following the pointers from the returned head
`arena + MIXED(0)`, the `k`-th dependent load lands on the slot of
element `perm[(k0 + k) mod nr_elts]`, where `k0` is the position of
element 0 in `perm`. -/
theorem generate_chase_visits (mixer : ℕ → ℕ) (nr_mixers stride nmi nr_elts : ℕ)
    (perm : ℕ → ℕ) (k0 : ℕ)
    (hs : 0 < stride) (hn : 0 < nr_elts)
    (hmix : ∀ s, mixer s < nmi)
    (hpinj : ∀ a, a < nr_elts → ∀ b, b < nr_elts → perm a = perm b → a = b)
    (hk0 : k0 < nr_elts) (hp0 : perm k0 = 0) :
    ∀ k, chaseSeq (generate_chase_mem mixer nr_mixers stride (stride / nmi) nr_elts perm)
        (generate_chase_head mixer nr_mixers stride (stride / nmi)) k
      = some (MIXED mixer nr_mixers stride (stride / nmi) (perm ((k0 + k) % nr_elts))) := by
  intro k
  induction k with
  | zero =>
    have h0 : (k0 + 0) % nr_elts = k0 := by rw [Nat.add_zero, Nat.mod_eq_of_lt hk0]
    rw [chaseSeq, generate_chase_head, h0, hp0]
  | succ k ih =>
    rw [chaseSeq, ih]
    show generate_chase_mem mixer nr_mixers stride (stride / nmi) nr_elts perm
        (MIXED mixer nr_mixers stride (stride / nmi) (perm ((k0 + k) % nr_elts))) = _
    have hj : (k0 + k) % nr_elts < nr_elts := Nat.mod_lt _ hn
    rw [generate_chase_mem_at mixer nr_mixers stride nmi nr_elts perm _ hj hs hmix hpinj,
      nextIdx_mod _ _ hj, mod_succ_mod, ← Nat.add_assoc]

/-- C1: under the data-model preconditions, the pointers written by
`generate_chase` (forward-link form) form a single cycle: starting from
the returned head `arena + MIXED(0)`, the chase is defined forever,
visits the slots of elements `visit 0 = 0, visit 1, …`, the first
`nr_elts = total_memory / stride` visited addresses are pairwise
distinct, step `nr_elts` is back at element 0 (the head), and every
visited address lies inside the arena (`< total_memory`) and inside
exactly one element's `stride`-byte slot (its slot index is recovered by
division: `addr / stride = visit k`). -/
theorem generate_chase_cycle
    (mixer tlb_perm : ℕ → ℕ) (gperm : ℕ → ℕ → ℕ)
    (stride tlb_locality total_memory nr_mixers nmi : ℕ)
    (hs8 : 8 ≤ stride)
    (hst : stride ∣ tlb_locality) (htt : tlb_locality ∣ total_memory)
    (htlb0 : 0 < tlb_locality) (htm0 : 0 < total_memory)
    (hmix : ∀ s, mixer s < nmi)
    (htlb : Finset.image tlb_perm (Finset.range (total_memory / tlb_locality))
        = Finset.range (total_memory / tlb_locality))
    (hg : ∀ g, g < total_memory / tlb_locality →
        Finset.image (gperm g) (Finset.range (tlb_locality / stride))
          = Finset.Ico (tlb_perm g * (tlb_locality / stride))
              (tlb_perm g * (tlb_locality / stride) + (tlb_locality / stride))) :
    ∃ visit : ℕ → ℕ,
      visit 0 = 0 ∧
      (∀ k, chaseSeq
          (generate_chase_mem mixer nr_mixers stride (stride / nmi)
            (total_memory / stride) (chase_perm gperm (tlb_locality / stride)))
          (generate_chase_head mixer nr_mixers stride (stride / nmi)) k
        = some (MIXED mixer nr_mixers stride (stride / nmi) (visit k))) ∧
      (∀ k, visit k < total_memory / stride) ∧
      (∀ k1, k1 < total_memory / stride → ∀ k2, k2 < total_memory / stride →
        MIXED mixer nr_mixers stride (stride / nmi) (visit k1)
          = MIXED mixer nr_mixers stride (stride / nmi) (visit k2) → k1 = k2) ∧
      visit (total_memory / stride) = 0 ∧
      (∀ k, MIXED mixer nr_mixers stride (stride / nmi) (visit k) < total_memory ∧
        MIXED mixer nr_mixers stride (stride / nmi) (visit k) / stride = visit k) := by
  have hs : 0 < stride := by omega
  have hdvd : stride ∣ total_memory := dvd_trans hst htt
  have h1 : tlb_locality / stride * stride = tlb_locality := Nat.div_mul_cancel hst
  have h2 : total_memory / tlb_locality * tlb_locality = total_memory := Nat.div_mul_cancel htt
  have hnt : total_memory / stride * stride = total_memory := Nat.div_mul_cancel hdvd
  have hnept0 : 0 < tlb_locality / stride := Nat.div_pos (Nat.le_of_dvd htlb0 hst) hs
  have hnpos : 0 < total_memory / stride := Nat.div_pos (Nat.le_of_dvd htm0 hdvd) hs
  have hn_eq : total_memory / stride
      = (total_memory / tlb_locality) * (tlb_locality / stride) := by
    obtain ⟨A, hA⟩ := htt
    obtain ⟨B, hB⟩ := hst
    have hBpos : 0 < stride * B := hB ▸ htlb0
    have e1 : stride * B * A / stride = B * A := by
      rw [Nat.mul_assoc]; exact Nat.mul_div_cancel_left _ hs
    have e2 : stride * B * A / (stride * B) = A := Nat.mul_div_cancel_left _ hBpos
    have e3 : stride * B / stride = B := Nat.mul_div_cancel_left _ hs
    rw [hA, hB, e1, e2, e3, Nat.mul_comm]
  have himg : Finset.image (chase_perm gperm (tlb_locality / stride))
      (Finset.range (total_memory / stride)) = Finset.range (total_memory / stride) := by
    rw [hn_eq]
    exact chase_perm_image tlb_perm gperm _ _ hnept0 htlb hg
  have hplt : ∀ j, j < total_memory / stride →
      chase_perm gperm (tlb_locality / stride) j < total_memory / stride := by
    intro j hj
    have : chase_perm gperm (tlb_locality / stride) j ∈ Finset.range (total_memory / stride) :=
      himg ▸ Finset.mem_image_of_mem _ (Finset.mem_range.mpr hj)
    exact Finset.mem_range.mp this
  have hpinj : ∀ a, a < total_memory / stride → ∀ b, b < total_memory / stride →
      chase_perm gperm (tlb_locality / stride) a = chase_perm gperm (tlb_locality / stride) b
        → a = b := by
    have hInj : Set.InjOn (chase_perm gperm (tlb_locality / stride))
        (Finset.range (total_memory / stride)) := by
      apply Finset.card_image_iff.mp
      rw [himg]
    intro a ha b hb he
    exact hInj (by simpa using ha) (by simpa using hb) he
  obtain ⟨k0, hk0mem, hp0⟩ : ∃ k0 ∈ Finset.range (total_memory / stride),
      chase_perm gperm (tlb_locality / stride) k0 = 0 := by
    apply Finset.mem_image.mp
    rw [himg]
    exact Finset.mem_range.mpr hnpos
  rw [Finset.mem_range] at hk0mem
  refine ⟨fun k => chase_perm gperm (tlb_locality / stride)
      ((k0 + k) % (total_memory / stride)), ?_, ?_, ?_, ?_, ?_, ?_⟩
  · show chase_perm gperm (tlb_locality / stride)
        ((k0 + 0) % (total_memory / stride)) = 0
    rw [Nat.add_zero, Nat.mod_eq_of_lt hk0mem, hp0]
  · exact generate_chase_visits mixer nr_mixers stride nmi _ _ k0 hs hnpos hmix hpinj
      hk0mem hp0
  · intro k
    exact hplt _ (Nat.mod_lt _ hnpos)
  · intro k1 hk1 k2 hk2 he
    have hj1 : (k0 + k1) % (total_memory / stride) < total_memory / stride :=
      Nat.mod_lt _ hnpos
    have hj2 : (k0 + k2) % (total_memory / stride) < total_memory / stride :=
      Nat.mod_lt _ hnpos
    have hv := MIXED_inj mixer nr_mixers stride nmi _ _ (hmix _) (hmix _) hs he
    have hjj := hpinj _ hj1 _ hj2 hv
    have hmeq : k1 ≡ k2 [MOD total_memory / stride] :=
      Nat.ModEq.add_left_cancel' k0 hjj
    rw [Nat.ModEq, Nat.mod_eq_of_lt hk1, Nat.mod_eq_of_lt hk2] at hmeq
    exact hmeq
  · show chase_perm gperm (tlb_locality / stride)
        ((k0 + total_memory / stride) % (total_memory / stride)) = 0
    rw [Nat.add_mod_right, Nat.mod_eq_of_lt hk0mem, hp0]
  · intro k
    have hv := hplt _ (Nat.mod_lt (k0 + k) hnpos)
    obtain ⟨hle, hlt, hdiv⟩ := MIXED_slot mixer nr_mixers stride nmi
      (chase_perm gperm (tlb_locality / stride) ((k0 + k) % (total_memory / stride)))
      (hmix _) hs
    refine ⟨?_, hdiv⟩
    have hmul : (chase_perm gperm (tlb_locality / stride)
          ((k0 + k) % (total_memory / stride)) + 1) * stride
        ≤ total_memory / stride * stride :=
      Nat.mul_le_mul_right _ (by omega)
    rw [hnt] at hmul
    exact lt_of_lt_of_le hlt hmul

/-! ## The inverse-permutation variant (`src/unnamed/part_001`)

That file's `generate_chase` first builds `perm_inverse` with
`for (i...) perm_inverse[perm[i]] = i;` and then threads
`for (i...) { next = perm_inverse[i] + 1; next = (next == nr_elts) ? 0 : next;
*(arena + MIXED(i)) = arena + MIXED(perm[next]); }`. -/

/-- The `perm_inverse` array (malloc'd garbage modelled as 0; every cell
below `nr_elts` is written when `perm` permutes `[0, nr_elts)`). -/
def perm_inverse (nr_elts : ℕ) (perm : ℕ → ℕ) : ℕ → ℕ :=
  updFold nr_elts perm (fun i => i) (fun _ => 0)

/-- The threading loop of the `src/unnamed/part_001` variant. -/
def generate_chase_inv_mem (mixer : ℕ → ℕ) (nr_mixers stride mixer_scale nr_elts : ℕ)
    (perm : ℕ → ℕ) : ℕ → Option ℕ :=
  updFold nr_elts (fun i => MIXED mixer nr_mixers stride mixer_scale i)
    (fun i => some (MIXED mixer nr_mixers stride mixer_scale
      (perm (nextIdx nr_elts (perm_inverse nr_elts perm i)))))
    (fun _ => none)

/-- The `src/unnamed/part_001` variant also returns `arena + MIXED(0)`. -/
def generate_chase_inv_head (mixer : ℕ → ℕ) (nr_mixers stride mixer_scale : ℕ) : ℕ :=
  MIXED mixer nr_mixers stride mixer_scale 0

/-- C3: for the same permutation, the same mixer column and the same
arena, the forward-link loop of `src/permutation.c` and the
inverse-permutation loop of `src/unnamed/part_001` write exactly the
same pointer into exactly the same arena cells (the final memories agree
on every address, written or not), and both return the same head
`arena + MIXED(0)`. -/
theorem generate_chase_forms_equivalent
    (mixer perm : ℕ → ℕ) (nr_mixers stride nmi nr_elts : ℕ)
    (hs : 0 < stride)
    (hmix : ∀ s, mixer s < nmi)
    (hpim : Finset.image perm (Finset.range nr_elts) = Finset.range nr_elts) :
    (∀ a, generate_chase_mem mixer nr_mixers stride (stride / nmi) nr_elts perm a
        = generate_chase_inv_mem mixer nr_mixers stride (stride / nmi) nr_elts perm a) ∧
      generate_chase_head mixer nr_mixers stride (stride / nmi)
        = generate_chase_inv_head mixer nr_mixers stride (stride / nmi) := by
  have hplt : ∀ j, j < nr_elts → perm j < nr_elts := by
    intro j hj
    have : perm j ∈ Finset.range nr_elts :=
      hpim ▸ Finset.mem_image_of_mem _ (Finset.mem_range.mpr hj)
    exact Finset.mem_range.mp this
  have hpinj : ∀ a, a < nr_elts → ∀ b, b < nr_elts → perm a = perm b → a = b := by
    have hInj : Set.InjOn perm (Finset.range nr_elts) := by
      apply Finset.card_image_iff.mp
      rw [hpim]
    intro a ha b hb he
    exact hInj (by simpa using ha) (by simpa using hb) he
  have hsurj : ∀ x, x < nr_elts → ∃ i, i < nr_elts ∧ perm i = x := by
    intro x hx
    have : x ∈ Finset.image perm (Finset.range nr_elts) := by
      rw [hpim]; exact Finset.mem_range.mpr hx
    obtain ⟨i, hi, hpi⟩ := Finset.mem_image.mp this
    exact ⟨i, Finset.mem_range.mp hi, hpi⟩
  have hinv : ∀ i, i < nr_elts → perm_inverse nr_elts perm (perm i) = i := by
    intro i hi
    exact updFold_written nr_elts perm (fun i => i) (fun _ => 0) i hi hpinj
  refine ⟨fun a => ?_, rfl⟩
  by_cases hx : ∃ x, x < nr_elts ∧ a = MIXED mixer nr_mixers stride (stride / nmi) x
  · obtain ⟨x, hxlt, rfl⟩ := hx
    obtain ⟨i, hilt, rfl⟩ := hsurj x hxlt
    have hF : generate_chase_mem mixer nr_mixers stride (stride / nmi) nr_elts perm
        (MIXED mixer nr_mixers stride (stride / nmi) (perm i))
          = some (MIXED mixer nr_mixers stride (stride / nmi) (perm (nextIdx nr_elts i))) :=
      generate_chase_mem_at mixer nr_mixers stride nmi nr_elts perm i hilt hs hmix hpinj
    have hI : generate_chase_inv_mem mixer nr_mixers stride (stride / nmi) nr_elts perm
        (MIXED mixer nr_mixers stride (stride / nmi) (perm i))
          = some (MIXED mixer nr_mixers stride (stride / nmi)
              (perm (nextIdx nr_elts (perm_inverse nr_elts perm (perm i))))) := by
      unfold generate_chase_inv_mem
      exact updFold_written nr_elts _ _ _ (perm i) (hplt i hilt)
        (fun c hc d hd he => MIXED_inj mixer nr_mixers stride nmi c d (hmix _) (hmix _) hs he)
    rw [hF, hI, hinv i hilt]
  · push_neg at hx
    have hF : generate_chase_mem mixer nr_mixers stride (stride / nmi) nr_elts perm a
        = none := by
      unfold generate_chase_mem
      exact updFold_not_written _ _ _ _ a
        (fun i hi he => (hx (perm i) (hplt i hi)) he)
    have hI : generate_chase_inv_mem mixer nr_mixers stride (stride / nmi) nr_elts perm a
        = none := by
      unfold generate_chase_inv_mem
      exact updFold_not_written _ _ _ _ a (fun i hi he => (hx i hi) he)
    rw [hF, hI]

/-- Witness for `generate_chase_forms_equivalent`: the 4-element
permutation `[2, 0, 3, 1]` with a trivial mixer column. -/
theorem generate_chase_forms_equivalent_witness :
    (0 < 8 ∧ Finset.image (fun i => if i = 0 then 2 else if i = 1 then 0 else if i = 2 then 3 else if i = 3 then 1 else i)
        (Finset.range 4) = Finset.range 4) ∧
      ((∀ a, generate_chase_mem (fun _ => 0) 1 8 (8 / 1) 4
            (fun i => if i = 0 then 2 else if i = 1 then 0 else if i = 2 then 3 else if i = 3 then 1 else i) a
          = generate_chase_inv_mem (fun _ => 0) 1 8 (8 / 1) 4
            (fun i => if i = 0 then 2 else if i = 1 then 0 else if i = 2 then 3 else if i = 3 then 1 else i) a) ∧
        generate_chase_head (fun _ => 0) 1 8 (8 / 1)
          = generate_chase_inv_head (fun _ => 0) 1 8 (8 / 1)) :=
  ⟨⟨by decide, by decide⟩,
    generate_chase_forms_equivalent (fun _ => 0)
      (fun i => if i = 0 then 2 else if i = 1 then 0 else if i = 2 then 3 else if i = 3 then 1 else i)
      1 8 1 4 (by decide) (fun _ => Nat.one_pos) (by decide)⟩

/-- C4: for a mixer table built by `generate_chase_mixer` (each slot `s`
holding a permutation `t s` of `[0, nr_mixer_indices)`), two distinct
`mixer_idx` columns `a ≠ b` (both `< nr_mixer_indices`) give every
element `x` two *different* in-element offsets, and every column's
`MIXED(x)` lies inside element `x`'s `stride`-byte slot.  Preconditions
from the data model: `nr_mixer_indices = stride / base_object_size`, so
`0 < nr_mixer_indices ≤ stride`. -/
theorem mixer_columns_disjoint (t : ℕ → ℕ → ℕ) (nr_mixers nmi stride : ℕ)
    (hNR : 0 < nr_mixers) (hnmi0 : 0 < nmi) (hnmis : nmi ≤ stride)
    (ht : ∀ s, Finset.image (t s) (Finset.range nmi) = Finset.range nmi)
    (a b x : ℕ) (hab : a ≠ b) (ha : a < nmi) (hb : b < nmi) :
    MIXED (fun s => generate_chase_mixer nr_mixers t (a * nr_mixers + s))
        nr_mixers stride (stride / nmi) x
      ≠ MIXED (fun s => generate_chase_mixer nr_mixers t (b * nr_mixers + s))
        nr_mixers stride (stride / nmi) x ∧
    (∀ j, j < nmi →
      x * stride ≤ MIXED (fun s => generate_chase_mixer nr_mixers t (j * nr_mixers + s))
          nr_mixers stride (stride / nmi) x ∧
        MIXED (fun s => generate_chase_mixer nr_mixers t (j * nr_mixers + s))
          nr_mixers stride (stride / nmi) x < (x + 1) * stride) := by
  have hs : 0 < stride := lt_of_lt_of_le hnmi0 hnmis
  have hsA : x &&& (nr_mixers - 1) < nr_mixers :=
    lt_of_le_of_lt Nat.and_le_right (by omega)
  have hcol : ∀ j, generate_chase_mixer nr_mixers t (j * nr_mixers + (x &&& (nr_mixers - 1)))
      = t (x &&& (nr_mixers - 1)) j := by
    intro j
    obtain ⟨hdiv, hmod⟩ := block_div_mod j (x &&& (nr_mixers - 1)) nr_mixers hsA
    rw [generate_chase_mixer, hmod, hdiv]
  have hv : ∀ j, j < nmi → t (x &&& (nr_mixers - 1)) j < nmi := by
    intro j hj
    have : t (x &&& (nr_mixers - 1)) j ∈ Finset.range nmi :=
      ht _ ▸ Finset.mem_image_of_mem _ (Finset.mem_range.mpr hj)
    exact Finset.mem_range.mp this
  have hscale : 0 < stride / nmi := Nat.div_pos hnmis hnmi0
  have htinj : t (x &&& (nr_mixers - 1)) a ≠ t (x &&& (nr_mixers - 1)) b := by
    intro he
    have hInj : Set.InjOn (t (x &&& (nr_mixers - 1)))
        (Finset.range nmi) := by
      apply Finset.card_image_iff.mp
      rw [ht]
    exact hab (hInj (by simpa using ha) (by simpa using hb) he)
  constructor
  · intro he
    unfold MIXED at he
    simp only [] at he
    rw [hcol a, hcol b] at he
    have h2 : t (x &&& (nr_mixers - 1)) a * (stride / nmi)
        = t (x &&& (nr_mixers - 1)) b * (stride / nmi) := by omega
    exact htinj (Nat.eq_of_mul_eq_mul_right hscale h2)
  · intro j hj
    have hmixx : (fun s => generate_chase_mixer nr_mixers t (j * nr_mixers + s))
        (x &&& (nr_mixers - 1)) < nmi := by
      show generate_chase_mixer nr_mixers t (j * nr_mixers + (x &&& (nr_mixers - 1))) < nmi
      rw [hcol j]
      exact hv j hj
    obtain ⟨hle, hlt, _⟩ := MIXED_slot
      (fun s => generate_chase_mixer nr_mixers t (j * nr_mixers + s))
      nr_mixers stride nmi x hmixx hs
    exact ⟨hle, hlt⟩

/-- Witness for `mixer_columns_disjoint`: identity slot permutations,
`nr_mixers = 1`, `nr_mixer_indices = 2`, `stride = 16`, columns 0 and 1,
element `x = 5`. -/
theorem mixer_columns_disjoint_witness :
    ((0:ℕ) ≠ 1 ∧ (2:ℕ) ≤ 16) ∧
      (MIXED (fun s => generate_chase_mixer 1 (fun _ j => j) (0 * 1 + s)) 1 16 (16 / 2) 5
          ≠ MIXED (fun s => generate_chase_mixer 1 (fun _ j => j) (1 * 1 + s)) 1 16 (16 / 2) 5 ∧
        (∀ j, j < 2 →
          5 * 16 ≤ MIXED (fun s => generate_chase_mixer 1 (fun _ j => j) (j * 1 + s)) 1 16 (16 / 2) 5 ∧
            MIXED (fun s => generate_chase_mixer 1 (fun _ j => j) (j * 1 + s)) 1 16 (16 / 2) 5
              < (5 + 1) * 16)) :=
  ⟨⟨by decide, by decide⟩,
    mixer_columns_disjoint (fun _ j => j) 1 2 16 (by decide) (by decide) (by decide)
      (fun _ => by simp) 0 1 5 (by decide) (by decide) (by decide)⟩

/-- A chase slot of element `e` lies in the aligned
`tlb_locality`-byte window number `e / nr_elts_per_tlb`
(where `tlb_locality = nr_elts_per_tlb * stride`). -/
theorem MIXED_tlb_window (mixer : ℕ → ℕ) (nr_mixers stride nmi nept e : ℕ)
    (hmixx : mixer (e &&& (nr_mixers - 1)) < nmi) (hs : 0 < stride) (hnept : 0 < nept) :
    MIXED mixer nr_mixers stride (stride / nmi) e / (nept * stride) = e / nept := by
  have hoff := mixer_offset_lt _ nmi stride hmixx hs
  have hdm := Nat.div_add_mod e nept
  have hml : e % nept < nept := Nat.mod_lt e hnept
  have h1 : e * stride = e / nept * (nept * stride) + e % nept * stride := by
    conv_lhs => rw [← hdm]
    ring
  have heq : MIXED mixer nr_mixers stride (stride / nmi) e
      = (e / nept) * (nept * stride)
        + (e % nept * stride + mixer (e &&& (nr_mixers - 1)) * (stride / nmi)) := by
    rw [MIXED, h1, Nat.add_assoc]
  have hrem : e % nept * stride + mixer (e &&& (nr_mixers - 1)) * (stride / nmi)
      < nept * stride := by
    have h2 : (e % nept + 1) * stride ≤ nept * stride := Nat.mul_le_mul_right _ (by omega)
    have h3 : (e % nept + 1) * stride = e % nept * stride + stride := by ring
    linarith
  rw [heq]
  exact (block_div_mod (e / nept) _ (nept * stride) hrem).1

/-- An element of segment `g` of the assembled `perm` lies in TLB group
`tlb_perm g`. -/
theorem chase_perm_group (tlb_perm : ℕ → ℕ) (gperm : ℕ → ℕ → ℕ) (ntg nept i : ℕ)
    (hnept : 0 < nept) (hi : i < ntg * nept)
    (hg : ∀ g, g < ntg → Finset.image (gperm g) (Finset.range nept)
        = Finset.Ico (tlb_perm g * nept) (tlb_perm g * nept + nept)) :
    chase_perm gperm nept i / nept = tlb_perm (i / nept) := by
  have hgdiv : i / nept < ntg := (Nat.div_lt_iff_lt_mul hnept).mpr hi
  have hval : chase_perm gperm nept i ∈ Finset.Ico (tlb_perm (i / nept) * nept)
      (tlb_perm (i / nept) * nept + nept) := by
    rw [← hg _ hgdiv]
    exact Finset.mem_image_of_mem _ (Finset.mem_range.mpr (Nat.mod_lt i hnept))
  rw [Finset.mem_Ico] at hval
  have h1 : chase_perm gperm nept i
      = tlb_perm (i / nept) * nept + (chase_perm gperm nept i - tlb_perm (i / nept) * nept) := by
    omega
  rw [h1]
  exact (block_div_mod _ _ nept (by omega)).1

/-- C5: TLB locality of the chase built by `generate_chase`.  For every
aligned `tlb_locality`-byte window `w` of the arena, the steps of one
period `[0, nr_elts)` of the chase that land inside window `w` are
exactly one cyclically contiguous run of `tlb_locality / stride`
consecutive steps `(s, s+1, …) mod nr_elts` — the window is entered
once per traversal and exactly `tlb_locality / stride` consecutive
dependent loads are performed inside it. -/
theorem generate_chase_tlb_locality
    (mixer tlb_perm : ℕ → ℕ) (gperm : ℕ → ℕ → ℕ)
    (stride tlb_locality total_memory nr_mixers nmi : ℕ)
    (hs8 : 8 ≤ stride)
    (hst : stride ∣ tlb_locality) (htt : tlb_locality ∣ total_memory)
    (htlb0 : 0 < tlb_locality) (htm0 : 0 < total_memory)
    (hmix : ∀ s, mixer s < nmi)
    (htlb : Finset.image tlb_perm (Finset.range (total_memory / tlb_locality))
        = Finset.range (total_memory / tlb_locality))
    (hg : ∀ g, g < total_memory / tlb_locality →
        Finset.image (gperm g) (Finset.range (tlb_locality / stride))
          = Finset.Ico (tlb_perm g * (tlb_locality / stride))
              (tlb_perm g * (tlb_locality / stride) + (tlb_locality / stride))) :
    ∀ w, w < total_memory / tlb_locality →
      ∃ s, (∀ k, k < total_memory / stride →
          ((∃ a, chaseSeq (generate_chase_mem mixer nr_mixers stride (stride / nmi)
                (total_memory / stride) (chase_perm gperm (tlb_locality / stride)))
              (generate_chase_head mixer nr_mixers stride (stride / nmi)) k = some a ∧
            a / tlb_locality = w)
          ↔ ∃ j, j < tlb_locality / stride ∧ k = (s + j) % (total_memory / stride))) ∧
        (∀ j1, j1 < tlb_locality / stride → ∀ j2, j2 < tlb_locality / stride →
          (s + j1) % (total_memory / stride) = (s + j2) % (total_memory / stride) → j1 = j2) := by
  have hs : 0 < stride := by omega
  have hdvd : stride ∣ total_memory := dvd_trans hst htt
  have h1 : tlb_locality / stride * stride = tlb_locality := Nat.div_mul_cancel hst
  have hnept0 : 0 < tlb_locality / stride := Nat.div_pos (Nat.le_of_dvd htlb0 hst) hs
  have hnpos : 0 < total_memory / stride := Nat.div_pos (Nat.le_of_dvd htm0 hdvd) hs
  have hn_eq : total_memory / stride
      = (total_memory / tlb_locality) * (tlb_locality / stride) := by
    obtain ⟨A, hA⟩ := htt
    obtain ⟨B, hB⟩ := hst
    have hBpos : 0 < stride * B := hB ▸ htlb0
    have e1 : stride * B * A / stride = B * A := by
      rw [Nat.mul_assoc]; exact Nat.mul_div_cancel_left _ hs
    have e2 : stride * B * A / (stride * B) = A := Nat.mul_div_cancel_left _ hBpos
    have e3 : stride * B / stride = B := Nat.mul_div_cancel_left _ hs
    rw [hA, hB, e1, e2, e3, Nat.mul_comm]
  have hntg0 : 0 < total_memory / tlb_locality :=
    Nat.div_pos (Nat.le_of_dvd htm0 htt) htlb0
  have himg : Finset.image (chase_perm gperm (tlb_locality / stride))
      (Finset.range (total_memory / stride)) = Finset.range (total_memory / stride) := by
    rw [hn_eq]
    exact chase_perm_image tlb_perm gperm _ _ hnept0 htlb hg
  have hplt : ∀ j, j < total_memory / stride →
      chase_perm gperm (tlb_locality / stride) j < total_memory / stride := by
    intro j hj
    have : chase_perm gperm (tlb_locality / stride) j
        ∈ Finset.range (total_memory / stride) :=
      himg ▸ Finset.mem_image_of_mem _ (Finset.mem_range.mpr hj)
    exact Finset.mem_range.mp this
  have hpinj : ∀ a, a < total_memory / stride → ∀ b, b < total_memory / stride →
      chase_perm gperm (tlb_locality / stride) a = chase_perm gperm (tlb_locality / stride) b
        → a = b := by
    have hInj : Set.InjOn (chase_perm gperm (tlb_locality / stride))
        (Finset.range (total_memory / stride)) := by
      apply Finset.card_image_iff.mp
      rw [himg]
    intro a ha b hb he
    exact hInj (by simpa using ha) (by simpa using hb) he
  obtain ⟨k0, hk0mem, hp0⟩ : ∃ k0 ∈ Finset.range (total_memory / stride),
      chase_perm gperm (tlb_locality / stride) k0 = 0 := by
    apply Finset.mem_image.mp
    rw [himg]
    exact Finset.mem_range.mpr hnpos
  rw [Finset.mem_range] at hk0mem
  have hvis := generate_chase_visits mixer nr_mixers stride nmi _ _ k0 hs hnpos hmix hpinj
    hk0mem hp0
  -- window of a visited slot
  have hwin : ∀ i, i < total_memory / stride →
      MIXED mixer nr_mixers stride (stride / nmi)
          (chase_perm gperm (tlb_locality / stride) i) / tlb_locality
        = tlb_perm (i / (tlb_locality / stride)) := by
    intro i hi
    have hgrp := chase_perm_group tlb_perm gperm _ _ i hnept0 (hn_eq ▸ hi) hg
    have hW := MIXED_tlb_window mixer nr_mixers stride nmi (tlb_locality / stride)
      (chase_perm gperm (tlb_locality / stride) i) (hmix _) hs hnept0
    rw [h1] at hW
    rw [hW, hgrp]
  have htlbinj : ∀ a, a < total_memory / tlb_locality →
      ∀ b, b < total_memory / tlb_locality → tlb_perm a = tlb_perm b → a = b := by
    have hInj : Set.InjOn tlb_perm (Finset.range (total_memory / tlb_locality)) := by
      apply Finset.card_image_iff.mp
      rw [htlb]
    intro a ha b hb he
    exact hInj (by simpa using ha) (by simpa using hb) he
  intro w hw
  obtain ⟨g, hgmem, hgw⟩ : ∃ g ∈ Finset.range (total_memory / tlb_locality), tlb_perm g = w := by
    apply Finset.mem_image.mp
    rw [htlb]
    exact Finset.mem_range.mpr hw
  rw [Finset.mem_range] at hgmem
  have hGlt : ∀ j, j < tlb_locality / stride →
      g * (tlb_locality / stride) + j < total_memory / stride := by
    intro j hj
    have hle : (g + 1) * (tlb_locality / stride)
        ≤ (total_memory / tlb_locality) * (tlb_locality / stride) :=
      Nat.mul_le_mul_right _ (by omega)
    have he : (g + 1) * (tlb_locality / stride)
        = g * (tlb_locality / stride) + (tlb_locality / stride) := by ring
    omega
  -- the start of window w's run, one period after the head
  refine ⟨(g * (tlb_locality / stride) + (total_memory / stride - k0))
      % (total_memory / stride), ?_, ?_⟩
  swap
  · intro j1 hj1 j2 hj2 he
    have hmeq : j1 ≡ j2 [MOD total_memory / stride] := by
      apply Nat.ModEq.add_left_cancel'
        ((g * (tlb_locality / stride) + (total_memory / stride - k0))
          % (total_memory / stride))
      show (_ + j1) % _ = (_ + j2) % _
      exact he
    have hnle : tlb_locality / stride ≤ total_memory / stride := by
      rw [hn_eq]
      calc tlb_locality / stride = 1 * (tlb_locality / stride) := (Nat.one_mul _).symm
        _ ≤ (total_memory / tlb_locality) * (tlb_locality / stride) :=
          Nat.mul_le_mul_right _ hntg0
    rw [Nat.ModEq, Nat.mod_eq_of_lt (by omega), Nat.mod_eq_of_lt (by omega)] at hmeq
    exact hmeq
  have hkey : ∀ j, j < tlb_locality / stride →
      (k0 + (g * (tlb_locality / stride) + (total_memory / stride - k0))
          % (total_memory / stride) + j) % (total_memory / stride)
        = g * (tlb_locality / stride) + j := by
    intro j hj
    rw [Nat.add_assoc,
      show k0 + ((g * (tlb_locality / stride) + (total_memory / stride - k0))
            % (total_memory / stride) + j)
          = (g * (tlb_locality / stride) + (total_memory / stride - k0))
            % (total_memory / stride) + (k0 + j) by ring,
      Nat.mod_add_mod,
      show g * (tlb_locality / stride) + (total_memory / stride - k0) + (k0 + j)
          = g * (tlb_locality / stride) + j + (total_memory / stride) by omega,
      Nat.add_mod_right, Nat.mod_eq_of_lt (hGlt j hj)]
  intro k hk
  constructor
  · rintro ⟨a, hsa, haw⟩
    rw [hvis k] at hsa
    have ha : a = MIXED mixer nr_mixers stride (stride / nmi)
        (chase_perm gperm (tlb_locality / stride)
          ((k0 + k) % (total_memory / stride))) := (Option.some.injEq .. ▸ hsa).symm
    have hj' : (k0 + k) % (total_memory / stride) < total_memory / stride :=
      Nat.mod_lt _ hnpos
    rw [ha, hwin _ hj'] at haw
    have hdivlt : (k0 + k) % (total_memory / stride) / (tlb_locality / stride)
        < total_memory / tlb_locality := by
      apply (Nat.div_lt_iff_lt_mul hnept0).mpr
      rw [← hn_eq]
      exact hj'
    have hgeq : (k0 + k) % (total_memory / stride) / (tlb_locality / stride) = g :=
      htlbinj _ hdivlt _ hgmem (haw.trans hgw.symm)
    refine ⟨(k0 + k) % (total_memory / stride) % (tlb_locality / stride),
      Nat.mod_lt _ hnept0, ?_⟩
    have hsplit : (k0 + k) % (total_memory / stride)
        = g * (tlb_locality / stride)
          + (k0 + k) % (total_memory / stride) % (tlb_locality / stride) := by
      have hda := Nat.div_add_mod ((k0 + k) % (total_memory / stride)) (tlb_locality / stride)
      rw [hgeq] at hda
      have hc : tlb_locality / stride * g = g * (tlb_locality / stride) := Nat.mul_comm _ _
      omega
    have hkk : (k0 + k) % (total_memory / stride)
        = (k0 + ((g * (tlb_locality / stride) + (total_memory / stride - k0))
            % (total_memory / stride)
          + (k0 + k) % (total_memory / stride) % (tlb_locality / stride)))
            % (total_memory / stride) := by
      rw [← Nat.add_assoc, hkey _ (Nat.mod_lt _ hnept0)]
      exact hsplit
    have hmeq : k ≡ (g * (tlb_locality / stride) + (total_memory / stride - k0))
          % (total_memory / stride)
        + (k0 + k) % (total_memory / stride) % (tlb_locality / stride)
          [MOD total_memory / stride] := by
      apply Nat.ModEq.add_left_cancel' k0
      exact hkk
    rw [Nat.ModEq, Nat.mod_eq_of_lt hk] at hmeq
    exact hmeq
  · rintro ⟨j, hj, rfl⟩
    refine ⟨MIXED mixer nr_mixers stride (stride / nmi)
      (chase_perm gperm (tlb_locality / stride) (g * (tlb_locality / stride) + j)), ?_, ?_⟩
    · rw [hvis, Nat.add_mod_mod, ← Nat.add_assoc, hkey j hj]
    · rw [hwin _ (hGlt j hj), (block_div_mod g j (tlb_locality / stride) hj).1, hgw]

/-- Witness for `generate_chase_cycle`: `stride = 8`,
`tlb_locality = 16`, `total_memory = 32` (4 elements, 2 TLB groups),
trivial mixer, `tlb_perm = [1, 0]`, group permutations `[3, 2]` and
`[0, 1]`. -/
theorem generate_chase_cycle_witness :
    (8 ≤ 8 ∧ (8:ℕ) ∣ 16 ∧ (16:ℕ) ∣ 32) ∧
      (∃ visit : ℕ → ℕ,
        visit 0 = 0 ∧
        (∀ k, chaseSeq
            (generate_chase_mem (fun _ => 0) 1 8 (8 / 1) (32 / 8)
              (chase_perm (fun gg r => if gg = 0 then 3 - r else r) (16 / 8)))
            (generate_chase_head (fun _ => 0) 1 8 (8 / 1)) k
          = some (MIXED (fun _ => 0) 1 8 (8 / 1) (visit k))) ∧
        (∀ k, visit k < 32 / 8) ∧
        (∀ k1, k1 < 32 / 8 → ∀ k2, k2 < 32 / 8 →
          MIXED (fun _ => 0) 1 8 (8 / 1) (visit k1)
            = MIXED (fun _ => 0) 1 8 (8 / 1) (visit k2) → k1 = k2) ∧
        visit (32 / 8) = 0 ∧
        (∀ k, MIXED (fun _ => 0) 1 8 (8 / 1) (visit k) < 32 ∧
          MIXED (fun _ => 0) 1 8 (8 / 1) (visit k) / 8 = visit k)) :=
  ⟨⟨by decide, by decide, by decide⟩,
    generate_chase_cycle (fun _ => 0)
      (fun gg => if gg = 0 then 1 else if gg = 1 then 0 else gg)
      (fun gg r => if gg = 0 then 3 - r else r)
      8 16 32 1 1 (by decide) (by decide) (by decide) (by decide) (by decide)
      (fun _ => Nat.one_pos) (by decide) (by decide)⟩

/-- Witness for `generate_chase_tlb_locality` on the same 4-element,
2-group instance, for window `w = 1`. -/
theorem generate_chase_tlb_locality_witness :
    ((8:ℕ) ∣ 16 ∧ (16:ℕ) ∣ 32 ∧ (1:ℕ) < 32 / 16) ∧
      (∃ s, (∀ k, k < 32 / 8 →
          ((∃ a, chaseSeq (generate_chase_mem (fun _ => 0) 1 8 (8 / 1) (32 / 8)
                (chase_perm (fun gg r => if gg = 0 then 3 - r else r) (16 / 8)))
              (generate_chase_head (fun _ => 0) 1 8 (8 / 1)) k = some a ∧
            a / 16 = 1)
          ↔ ∃ j, j < 16 / 8 ∧ k = (s + j) % (32 / 8))) ∧
        (∀ j1, j1 < 16 / 8 → ∀ j2, j2 < 16 / 8 →
          (s + j1) % (32 / 8) = (s + j2) % (32 / 8) → j1 = j2)) :=
  ⟨⟨by decide, by decide, by decide⟩,
    generate_chase_tlb_locality (fun _ => 0)
      (fun gg => if gg = 0 then 1 else if gg = 1 then 0 else gg)
      (fun gg r => if gg = 0 then 3 - r else r)
      8 16 32 1 1 (by decide) (by decide) (by decide) (by decide) (by decide)
      (fun _ => Nat.one_pos) (by decide) (by decide) 1 (by decide)⟩

/-! ## The x86_64 branch-chase rewriter (`asm.c` / `br_asm.c`)

Memory is a map from byte addresses to byte values; a C `char` store
truncates mod 256.  A pointer is read as 8 little-endian bytes.
`convert_pointers_to_branches` walks the cycle (reading each element's
successor *before* overwriting the element) and emits, per element,
`48 B8 <imm64>` followed by `FF E0` (`jmp rax`) or, at the end of a
chunk, `C3` (`ret`).  The floating-point chunk-size adjustment
`remain / (1 << lround(log2(1.0 * remain / chunk_size)))` is abstracted
as the *effective* chunk size `c` (any `1 ≤ c ≤ cycle length`); the walk
below models everything from `chunks_remaining = remain / chunk_size`
on, bit-exactly. -/

/-- A C `char` store: `*a = v` truncates to a byte. -/
def writeByte (m : ℕ → ℕ) (a v : ℕ) : ℕ → ℕ := fun b => if b = a then v % 256 else m b

/-- `*(char **)p`: the 8-byte little-endian pointer at `p`. -/
def ptrAt (m : ℕ → ℕ) (p : ℕ) : ℕ :=
  (List.range 8).foldr (fun i acc => acc * 256 + m (p + i)) 0

/-- `x64_emit_mov_imm64_rax`: `48 B8` then the 8 immediate bytes,
little-endian, at `p .. p+9`. -/
def x64_emit_mov_imm64_rax (m : ℕ → ℕ) (p imm64 : ℕ) : ℕ → ℕ :=
  updFold 8 (fun i => p + 2 + i) (fun i => imm64 >>> (8 * i) % 256)
    (writeByte (writeByte m p 0x48) (p + 1) 0xb8)

/-- `x64_emit_jmp_to_rax`: `FF E0` at `p`, `p+1`. -/
def x64_emit_jmp_to_rax (m : ℕ → ℕ) (p : ℕ) : ℕ → ℕ :=
  writeByte (writeByte m p 0xff) (p + 1) 0xe0

/-- `x64_emit_ret`: `C3` at `p`. -/
def x64_emit_ret (m : ℕ → ℕ) (p : ℕ) : ℕ → ℕ :=
  writeByte m p 0xc3

/-- The `do { … } while (p != head)` loop of
`convert_pointers_to_branches` (x86_64), one recursion step per
iteration.  `remain` counts the iterations still to run (the C loop is
controlled only by `p != head`; under the cycle hypotheses the loop body
runs exactly `cycle_len(head)` times, which the `remain = 0 → none`
fuel case makes explicit).  `chunk_count` is a C `int`; it is `≥ 1`
whenever the `--chunk_count == 0` test runs (proved below), so `Nat`
subtraction is faithful. -/
def convert_walk (head : ℕ) : (ℕ → ℕ) → ℕ → ℕ → ℕ → ℕ → Option (ℕ → ℕ)
  | _, _, 0, _, _ => none
  | m, p, remain + 1, cr, cc =>
    let cc1 := if cc = 0 then (remain + 1) / cr else cc
    if (List.range 4).all (fun i => m (p + 8 + i) == 0) then
      if cc1 - 1 = 0 then
        let m2 := x64_emit_ret (x64_emit_mov_imm64_rax m p (ptrAt m p)) (p + 10)
        if ptrAt m p = head then some m2
        else convert_walk head m2 (ptrAt m p) remain (cr - 1) 0
      else
        let m2 := x64_emit_jmp_to_rax (x64_emit_mov_imm64_rax m p (ptrAt m p)) (p + 10)
        if ptrAt m p = head then some m2
        else convert_walk head m2 (ptrAt m p) remain cr (cc1 - 1)
    else none

/-- Which elements are the last of their chunk: the `chunk_count` /
`chunks_remaining` bookkeeping of the walk, producing one flag per
element in visitation order. -/
def chunk_flags : ℕ → ℕ → ℕ → List Bool
  | 0, _, _ => []
  | remain + 1, cr, cc =>
    let cc1 := if cc = 0 then (remain + 1) / cr else cc
    decide (cc1 - 1 = 0)
      :: chunk_flags remain (if cc1 - 1 = 0 then cr - 1 else cr) (cc1 - 1)

/-- The per-element byte pattern the rewriter leaves behind: `48 B8`,
the 8 little-endian successor bytes, then `FF E0` or (chunk end) `C3`. -/
def br_elem_pattern (m' : ℕ → ℕ) (p nxt : ℕ) (flag : Bool) : Prop :=
  m' p = 0x48 ∧ m' (p + 1) = 0xb8 ∧
  (∀ i, i < 8 → m' (p + 2 + i) = nxt >>> (8 * i) % 256) ∧
  m' (p + 10) = (if flag then 0xc3 else 0xff) ∧
  (flag = false → m' (p + 11) = 0xe0)

theorem writeByte_at (m : ℕ → ℕ) (a v : ℕ) : writeByte m a v a = v % 256 := by
  rw [writeByte]
  simp

theorem writeByte_other (m : ℕ → ℕ) (a v b : ℕ) (h : b ≠ a) : writeByte m a v b = m b := by
  rw [writeByte]
  simp [h]

/-- Reading a pointer only looks at bytes `p .. p+7`. -/
theorem ptrAt_congr (m1 m2 : ℕ → ℕ) (p : ℕ) (h : ∀ i, i < 8 → m1 (p + i) = m2 (p + i)) :
    ptrAt m1 p = ptrAt m2 p := by
  unfold ptrAt
  rw [show List.range 8 = [0, 1, 2, 3, 4, 5, 6, 7] from rfl]
  simp only [List.foldr]
  rw [h 0 (by norm_num), h 1 (by norm_num), h 2 (by norm_num), h 3 (by norm_num),
    h 4 (by norm_num), h 5 (by norm_num), h 6 (by norm_num), h 7 (by norm_num)]

/-- What `x64_emit_mov_imm64_rax` writes, and that it writes nothing
outside `[p, p+10)`. -/
theorem emit_mov_spec (m : ℕ → ℕ) (p imm : ℕ) :
    (∀ a, a < p ∨ p + 10 ≤ a → x64_emit_mov_imm64_rax m p imm a = m a) ∧
      x64_emit_mov_imm64_rax m p imm p = 0x48 ∧
      x64_emit_mov_imm64_rax m p imm (p + 1) = 0xb8 ∧
      (∀ i, i < 8 → x64_emit_mov_imm64_rax m p imm (p + 2 + i) = imm >>> (8 * i) % 256) := by
  refine ⟨?_, ?_, ?_, ?_⟩
  · intro a ha
    rw [x64_emit_mov_imm64_rax,
      updFold_not_written 8 _ _ _ a (fun i hi he => by omega),
      writeByte_other _ _ _ _ (by omega), writeByte_other _ _ _ _ (by omega)]
  · rw [x64_emit_mov_imm64_rax,
      updFold_not_written 8 _ _ _ p (fun i hi he => by omega),
      writeByte_other _ _ _ _ (by omega), writeByte_at]
  · rw [x64_emit_mov_imm64_rax,
      updFold_not_written 8 _ _ _ (p + 1) (fun i hi he => by omega),
      writeByte_at]
  · intro i hi
    rw [x64_emit_mov_imm64_rax]
    exact updFold_written 8 (fun i => p + 2 + i) _ _ i hi
      (fun a ha b hb he => by simp only [] at he; omega)

theorem emit_jmp_spec (m : ℕ → ℕ) (p : ℕ) :
    (∀ a, a ≠ p → a ≠ p + 1 → x64_emit_jmp_to_rax m p a = m a) ∧
      x64_emit_jmp_to_rax m p p = 0xff ∧ x64_emit_jmp_to_rax m p (p + 1) = 0xe0 := by
  refine ⟨fun a h1 h2 => ?_, ?_, ?_⟩
  · rw [x64_emit_jmp_to_rax, writeByte_other _ _ _ _ h2, writeByte_other _ _ _ _ h1]
  · rw [x64_emit_jmp_to_rax, writeByte_other _ _ _ _ (by omega), writeByte_at]
  · rw [x64_emit_jmp_to_rax, writeByte_at]

theorem emit_ret_spec (m : ℕ → ℕ) (p : ℕ) :
    (∀ a, a ≠ p → x64_emit_ret m p a = m a) ∧ x64_emit_ret m p p = 0xc3 := by
  exact ⟨fun a h1 => writeByte_other _ _ _ _ h1, writeByte_at _ _ _⟩

/-- The `chunks_remaining` / `chunk_count` bookkeeping invariant carried
across iterations. -/
def walk_inv (remain cr cc : ℕ) : Prop :=
  (cc = 0 → 1 ≤ cr ∧ cr ≤ remain) ∧
  (1 ≤ cc → 1 ≤ cr ∧ cc ≤ remain ∧ cr - 1 ≤ remain - cc ∧ (cr = 1 → remain = cc))

/-- Refreshing `chunk_count` at a chunk boundary
(`if (!chunk_count) chunk_count = remain / chunks_remaining;`) yields a
positive in-chunk count satisfying the invariant. -/
theorem walk_inv_refresh (remain cr cc : ℕ) (h : walk_inv remain cr cc) (hr : 1 ≤ remain) :
    1 ≤ (if cc = 0 then remain / cr else cc) ∧
      (if cc = 0 then remain / cr else cc) ≤ remain ∧
      cr - 1 ≤ remain - (if cc = 0 then remain / cr else cc) ∧
      (cr = 1 → remain = (if cc = 0 then remain / cr else cc)) ∧ 1 ≤ cr := by
  by_cases h0 : cc = 0
  · obtain ⟨hcr1, hcrle⟩ := h.1 h0
    rw [if_pos h0]
    have hq1 : 1 ≤ remain / cr := (Nat.one_le_div_iff (by omega)).mpr hcrle
    have hqle : remain / cr ≤ remain := Nat.div_le_self remain cr
    have hgap : cr - 1 ≤ remain - remain / cr := by
      have hmul : remain / cr * cr ≤ remain := Nat.div_mul_le_self remain cr
      have hexp : remain / cr * cr = remain / cr + remain / cr * (cr - 1) := by
        cases cr with
        | zero => omega
        | succ k => rw [Nat.add_sub_cancel]; ring
      have hone : 1 * (cr - 1) ≤ remain / cr * (cr - 1) := Nat.mul_le_mul_right _ hq1
      omega
    refine ⟨hq1, hqle, hgap, fun hc1 => ?_, by omega⟩
    rw [hc1, Nat.div_one]
  · rw [if_neg h0]
    obtain ⟨hcr1, hccle, hgap, hc1⟩ := h.2 (by omega)
    exact ⟨by omega, hccle, hgap, hc1, hcr1⟩

/-- The pattern only depends on the element's 12 bytes. -/
theorem br_elem_pattern_mono (m1 m2 : ℕ → ℕ) (p nxt : ℕ) (flag : Bool)
    (h : ∀ b, b < 12 → m2 (p + b) = m1 (p + b)) (hp : br_elem_pattern m1 p nxt flag) :
    br_elem_pattern m2 p nxt flag := by
  obtain ⟨h0, h1, him, h10, h11⟩ := hp
  refine ⟨?_, ?_, ?_, ?_, ?_⟩
  · have := h 0 (by norm_num); rw [Nat.add_zero] at this; rw [this, h0]
  · rw [h 1 (by norm_num), h1]
  · intro i hi
    have := h (2 + i) (by omega)
    rw [← Nat.add_assoc] at this
    rw [this, him i hi]
  · rw [h 10 (by norm_num), h10]
  · intro hf
    rw [h 11 (by norm_num), h11 hf]

/-- One loop body's writes: the `ret` and `jmp` forms both stay inside
the element's 12 bytes and leave the claimed pattern. -/
theorem emit_step_pattern (mcur : ℕ → ℕ) (p nxt : ℕ) :
    (∀ a, (a < p ∨ p + 12 ≤ a) →
      x64_emit_ret (x64_emit_mov_imm64_rax mcur p nxt) (p + 10) a = mcur a) ∧
    br_elem_pattern (x64_emit_ret (x64_emit_mov_imm64_rax mcur p nxt) (p + 10)) p nxt true ∧
    (∀ a, (a < p ∨ p + 12 ≤ a) →
      x64_emit_jmp_to_rax (x64_emit_mov_imm64_rax mcur p nxt) (p + 10) a = mcur a) ∧
    br_elem_pattern (x64_emit_jmp_to_rax (x64_emit_mov_imm64_rax mcur p nxt) (p + 10))
      p nxt false := by
  obtain ⟨hmf, hm0, hm1, hmi⟩ := emit_mov_spec mcur p nxt
  obtain ⟨hrf, hrv⟩ := emit_ret_spec (x64_emit_mov_imm64_rax mcur p nxt) (p + 10)
  obtain ⟨hjf, hjv, hjv1⟩ := emit_jmp_spec (x64_emit_mov_imm64_rax mcur p nxt) (p + 10)
  refine ⟨?_, ⟨?_, ?_, ?_, ?_, ?_⟩, ?_, ⟨?_, ?_, ?_, ?_, ?_⟩⟩
  · intro a ha
    rw [hrf a (by omega), hmf a (by omega)]
  · rw [hrf p (by omega), hm0]
  · rw [hrf (p + 1) (by omega), hm1]
  · intro i hi
    rw [hrf (p + 2 + i) (by omega), hmi i hi]
  · rw [hrv]; simp
  · intro hf; exact absurd hf (by simp)
  · intro a ha
    rw [hjf a (by omega) (by omega), hmf a (by omega)]
  · rw [hjf p (by omega) (by omega), hm0]
  · rw [hjf (p + 1) (by omega) (by omega), hm1]
  · intro i hi
    rw [hjf (p + 2 + i) (by omega) (by omega), hmi i hi]
  · rw [hjv]; simp
  · intro hf
    rw [show p + 11 = p + 10 + 1 by omega, hjv1]

/-- One unfolding of the loop body when the zero check passes. -/
theorem convert_walk_succ (head : ℕ) (m : ℕ → ℕ) (p r cr cc : ℕ)
    (hz : (List.range 4).all (fun i => m (p + 8 + i) == 0) = true) :
    convert_walk head m p (r + 1) cr cc =
      if (if cc = 0 then (r + 1) / cr else cc) - 1 = 0 then
        if ptrAt m p = head
          then some (x64_emit_ret (x64_emit_mov_imm64_rax m p (ptrAt m p)) (p + 10))
          else convert_walk head
            (x64_emit_ret (x64_emit_mov_imm64_rax m p (ptrAt m p)) (p + 10))
            (ptrAt m p) r (cr - 1) 0
      else
        if ptrAt m p = head
          then some (x64_emit_jmp_to_rax (x64_emit_mov_imm64_rax m p (ptrAt m p)) (p + 10))
          else convert_walk head
            (x64_emit_jmp_to_rax (x64_emit_mov_imm64_rax m p (ptrAt m p)) (p + 10))
            (ptrAt m p) r cr ((if cc = 0 then (r + 1) / cr else cc) - 1) := by
  rw [convert_walk, hz]
  simp

/-- Main invariant of the rewriter loop: starting at element
`n - remain` of the visitation order with a memory that differs from the
original `m` only on the windows of already-processed elements, the loop
completes, writes only inside the remaining elements' 12-byte windows,
and leaves every remaining element with its branch pattern, `ret` at
chunk ends and `jmp rax` elsewhere. -/
theorem convert_walk_spec (m : ℕ → ℕ) (cycle : List ℕ) (n : ℕ)
    (hptr : ∀ idx, idx < n → ptrAt m (cycle.getD idx 0) = cycle.getD ((idx + 1) % n) 0)
    (hzero : ∀ idx, idx < n → ∀ i, i < 4 → m (cycle.getD idx 0 + 8 + i) = 0)
    (hdisj : ∀ i1, i1 < n → ∀ i2, i2 < n → i1 ≠ i2 →
      cycle.getD i1 0 + 12 ≤ cycle.getD i2 0 ∨ cycle.getD i2 0 + 12 ≤ cycle.getD i1 0) :
    ∀ remain, 1 ≤ remain → remain ≤ n → ∀ cr cc mcur,
      walk_inv remain cr cc →
      (∀ a, (∀ j, j < n - remain → a < cycle.getD j 0 ∨ cycle.getD j 0 + 12 ≤ a) →
        mcur a = m a) →
      ∃ m', convert_walk (cycle.getD 0 0) mcur (cycle.getD (n - remain) 0) remain cr cc
          = some m' ∧
        (∀ a, (∀ j, n - remain ≤ j → j < n →
            a < cycle.getD j 0 ∨ cycle.getD j 0 + 12 ≤ a) → m' a = mcur a) ∧
        (∀ j, n - remain ≤ j → j < n →
          br_elem_pattern m' (cycle.getD j 0) (cycle.getD ((j + 1) % n) 0)
            ((chunk_flags remain cr cc).getD (j - (n - remain)) false)) := by
  intro remain
  induction remain with
  | zero => intro h1; omega
  | succ r ih =>
    intro _ hle cr cc mcur hinv magree
    have hidx : n - (r + 1) < n := by omega
    have hagw : ∀ b, b < 12 →
        mcur (cycle.getD (n - (r + 1)) 0 + b) = m (cycle.getD (n - (r + 1)) 0 + b) := by
      intro b hb
      apply magree
      intro j hj
      have hdd := hdisj j (by omega) (n - (r + 1)) hidx (by omega)
      omega
    have hzc : (List.range 4).all
        (fun i => mcur (cycle.getD (n - (r + 1)) 0 + 8 + i) == 0) = true := by
      rw [List.all_eq_true]
      intro i hi
      rw [List.mem_range] at hi
      have he8 : cycle.getD (n - (r + 1)) 0 + 8 + i
          = cycle.getD (n - (r + 1)) 0 + (8 + i) := by omega
      rw [beq_iff_eq, he8, hagw (8 + i) (by omega), ← he8]
      exact hzero (n - (r + 1)) hidx i hi
    have hnext : ptrAt mcur (cycle.getD (n - (r + 1)) 0)
        = cycle.getD ((n - (r + 1) + 1) % n) 0 := by
      rw [ptrAt_congr mcur m _ (fun i hi => hagw i (by omega))]
      exact hptr _ hidx
    obtain ⟨hcc1, hccle, hgap, hcr1eq, hcrpos⟩ :=
      walk_inv_refresh (r + 1) cr cc hinv (by omega)
    rw [convert_walk_succ _ _ _ _ _ _ hzc, hnext]
    cases r with
    | zero =>
      have hin : n - (0 + 1) + 1 = n := by omega
      rw [hin, Nat.mod_self]
      by_cases hchunk : (if cc = 0 then (0 + 1) / cr else cc) - 1 = 0
      · rw [if_pos hchunk, if_pos rfl]
        obtain ⟨hfr, hpr, _, _⟩ := emit_step_pattern mcur (cycle.getD (n - (0 + 1)) 0)
          (cycle.getD 0 0)
        have hflag : (chunk_flags (0 + 1) cr cc).getD 0 false = true := by
          rw [chunk_flags]
          simp [hchunk]
        refine ⟨_, rfl, fun a ha => hfr a (ha (n - 1) (by omega) (by omega)), ?_⟩
        intro j hj1 hj2
        have hj : j = n - 1 := by omega
        subst hj
        rw [show n - 1 - (n - (0 + 1)) = 0 by omega, hflag,
          show n - 1 + 1 = n by omega, Nat.mod_self]
        exact hpr
      · rw [if_neg hchunk, if_pos rfl]
        obtain ⟨_, _, hfj, hpj⟩ := emit_step_pattern mcur (cycle.getD (n - (0 + 1)) 0)
          (cycle.getD 0 0)
        have hflag : (chunk_flags (0 + 1) cr cc).getD 0 false = false := by
          rw [chunk_flags]
          simp [hchunk]
        refine ⟨_, rfl, fun a ha => hfj a (ha (n - 1) (by omega) (by omega)), ?_⟩
        intro j hj1 hj2
        have hj : j = n - 1 := by omega
        subst hj
        rw [show n - 1 - (n - (0 + 1)) = 0 by omega, hflag,
          show n - 1 + 1 = n by omega, Nat.mod_self]
        exact hpj
    | succ r' =>
      have hlt1 : n - (r' + 1 + 1) + 1 < n := by omega
      have hne : cycle.getD (n - (r' + 1 + 1) + 1) 0 ≠ cycle.getD 0 0 := by
        have hdd := hdisj (n - (r' + 1 + 1) + 1) hlt1 0 (by omega) (by omega)
        intro heq
        omega
      have hshift : n - (r' + 1 + 1) + 1 = n - (r' + 1) := by omega
      rw [Nat.mod_eq_of_lt hlt1, hshift]
      rw [hshift] at hne
      by_cases hchunk : (if cc = 0 then (r' + 1 + 1) / cr else cc) - 1 = 0
      · -- chunk boundary: emit ret, decrement chunks_remaining
        rw [if_pos hchunk, if_neg hne]
        obtain ⟨hfr, hpr, _, _⟩ := emit_step_pattern mcur (cycle.getD (n - (r' + 1 + 1)) 0)
          (cycle.getD (n - (r' + 1)) 0)
        have hcrge2 : 2 ≤ cr := by
          by_contra hc
          have hc1 : cr = 1 := by omega
          have := hcr1eq hc1
          omega
        have hinv' : walk_inv (r' + 1) (cr - 1) 0 :=
          ⟨fun _ => ⟨by omega, by omega⟩, fun h => absurd h (by omega)⟩
        have magree' : ∀ a, (∀ j, j < n - (r' + 1) →
            a < cycle.getD j 0 ∨ cycle.getD j 0 + 12 ≤ a) →
            x64_emit_ret (x64_emit_mov_imm64_rax mcur (cycle.getD (n - (r' + 1 + 1)) 0)
                (cycle.getD (n - (r' + 1)) 0)) (cycle.getD (n - (r' + 1 + 1)) 0 + 10) a
              = m a := by
          intro a ha
          rw [hfr a (ha (n - (r' + 1 + 1)) (by omega))]
          exact magree a (fun j hj => ha j (by omega))
        obtain ⟨m', hrun, hframe, hpat⟩ :=
          ih (by omega) (by omega) (cr - 1) 0 _ hinv' magree'
        have hflag : (chunk_flags (r' + 1 + 1) cr cc).getD 0 false = true := by
          rw [chunk_flags]
          simp [hchunk]
        have htail : ∀ k, (chunk_flags (r' + 1 + 1) cr cc).getD (k + 1) false
            = (chunk_flags (r' + 1) (cr - 1) 0).getD k false := by
          intro k
          rw [chunk_flags]
          simp [hchunk]
        refine ⟨m', hrun, ?_, ?_⟩
        · intro a ha
          rw [hframe a (fun j hj1 hj2 => ha j (by omega) hj2)]
          exact hfr a (ha (n - (r' + 1 + 1)) (by omega) (by omega))
        · intro j hj1 hj2
          by_cases hjidx : j = n - (r' + 1 + 1)
          · subst hjidx
            rw [show n - (r' + 1 + 1) - (n - (r' + 1 + 1)) = 0 by omega, hflag,
              show n - (r' + 1 + 1) + 1 = n - (r' + 1) by omega,
              Nat.mod_eq_of_lt (by omega)]
            refine br_elem_pattern_mono _ m' _ _ _ ?_ hpr
            intro b hb
            apply hframe
            intro jj hjj1 hjj2
            have hdd := hdisj (n - (r' + 1 + 1)) (by omega) jj (by omega) (by omega)
            omega
          · have hp := hpat j (by omega) hj2
            rw [show j - (n - (r' + 1 + 1)) = (j - (n - (r' + 1))) + 1 by omega, htail]
            exact hp
      · -- mid-chunk: emit jmp rax, decrement chunk_count
        rw [if_neg hchunk, if_neg hne]
        obtain ⟨_, _, hfj, hpj⟩ := emit_step_pattern mcur (cycle.getD (n - (r' + 1 + 1)) 0)
          (cycle.getD (n - (r' + 1)) 0)
        have hinv' : walk_inv (r' + 1) cr ((if cc = 0 then (r' + 1 + 1) / cr else cc) - 1) := by
          refine ⟨fun h0 => absurd h0 hchunk, fun _ => ⟨hcrpos, by omega, by omega, fun h1 => ?_⟩⟩
          have := hcr1eq h1
          omega
        have magree' : ∀ a, (∀ j, j < n - (r' + 1) →
            a < cycle.getD j 0 ∨ cycle.getD j 0 + 12 ≤ a) →
            x64_emit_jmp_to_rax (x64_emit_mov_imm64_rax mcur (cycle.getD (n - (r' + 1 + 1)) 0)
                (cycle.getD (n - (r' + 1)) 0)) (cycle.getD (n - (r' + 1 + 1)) 0 + 10) a
              = m a := by
          intro a ha
          rw [hfj a (ha (n - (r' + 1 + 1)) (by omega))]
          exact magree a (fun j hj => ha j (by omega))
        obtain ⟨m', hrun, hframe, hpat⟩ :=
          ih (by omega) (by omega) cr ((if cc = 0 then (r' + 1 + 1) / cr else cc) - 1) _
            hinv' magree'
        have hflag : (chunk_flags (r' + 1 + 1) cr cc).getD 0 false = false := by
          rw [chunk_flags]
          simp [hchunk]
        have htail : ∀ k, (chunk_flags (r' + 1 + 1) cr cc).getD (k + 1) false
            = (chunk_flags (r' + 1) cr
                ((if cc = 0 then (r' + 1 + 1) / cr else cc) - 1)).getD k false := by
          intro k
          rw [chunk_flags]
          simp [hchunk]
        refine ⟨m', hrun, ?_, ?_⟩
        · intro a ha
          rw [hframe a (fun j hj1 hj2 => ha j (by omega) hj2)]
          exact hfj a (ha (n - (r' + 1 + 1)) (by omega) (by omega))
        · intro j hj1 hj2
          by_cases hjidx : j = n - (r' + 1 + 1)
          · subst hjidx
            rw [show n - (r' + 1 + 1) - (n - (r' + 1 + 1)) = 0 by omega, hflag,
              show n - (r' + 1 + 1) + 1 = n - (r' + 1) by omega,
              Nat.mod_eq_of_lt (by omega)]
            refine br_elem_pattern_mono _ m' _ _ _ ?_ hpj
            intro b hb
            apply hframe
            intro jj hjj1 hjj2
            have hdd := hdisj (n - (r' + 1 + 1)) (by omega) jj (by omega) (by omega)
            omega
          · have hp := hpat j (by omega) hj2
            rw [show j - (n - (r' + 1 + 1)) = (j - (n - (r' + 1))) + 1 by omega, htail]
            exact hp

/-- C9: on x86_64, for every pointer cycle whose elements all have zero
bytes at offsets `[8, 12)` (and pairwise disjoint 12-byte code windows),
the rewriting loop of `convert_pointers_to_branches` completes without
the "not enough space" fatal, and afterwards every element of the cycle
begins with `48 B8` followed by the 8-byte little-endian address of its
successor element, followed at offset 10 by `FF E0` (`jmp rax`) — except
the last element of each chunk, which instead has `C3` (`ret`) at offset
10; no byte outside each element's first 12 bytes is written.  `c` is
the effective chunk size (the floating-point rounding of the requested
`chunk_size` is abstracted; any `1 ≤ c ≤ cycle length` is covered, so in
particular the rounded one). -/
theorem convert_pointers_to_branches_x64
    (m : ℕ → ℕ) (cycle : List ℕ) (c : ℕ)
    (hc1 : 1 ≤ c) (hc2 : c ≤ cycle.length) (hn0 : 0 < cycle.length)
    (hptr : ∀ idx, idx < cycle.length →
      ptrAt m (cycle.getD idx 0) = cycle.getD ((idx + 1) % cycle.length) 0)
    (hzero : ∀ idx, idx < cycle.length → ∀ i, i < 4 → m (cycle.getD idx 0 + 8 + i) = 0)
    (hdisj : ∀ i1, i1 < cycle.length → ∀ i2, i2 < cycle.length → i1 ≠ i2 →
      cycle.getD i1 0 + 12 ≤ cycle.getD i2 0 ∨ cycle.getD i2 0 + 12 ≤ cycle.getD i1 0) :
    ∃ m', convert_walk (cycle.getD 0 0) m (cycle.getD 0 0) cycle.length
        (cycle.length / c) 0 = some m' ∧
      (∀ a, (∀ j, j < cycle.length →
          a < cycle.getD j 0 ∨ cycle.getD j 0 + 12 ≤ a) → m' a = m a) ∧
      (∀ idx, idx < cycle.length →
        br_elem_pattern m' (cycle.getD idx 0) (cycle.getD ((idx + 1) % cycle.length) 0)
          ((chunk_flags cycle.length (cycle.length / c) 0).getD idx false)) := by
  have hinv : walk_inv cycle.length (cycle.length / c) 0 :=
    ⟨fun _ => ⟨(Nat.one_le_div_iff (by omega)).mpr hc2, Nat.div_le_self _ _⟩,
      fun h => absurd h (by omega)⟩
  obtain ⟨m', hrun, hframe, hpat⟩ := convert_walk_spec m cycle cycle.length hptr hzero hdisj
    cycle.length (by omega) (le_refl _) (cycle.length / c) 0 m hinv
    (fun a ha => rfl)
  rw [Nat.sub_self] at hrun hframe hpat
  refine ⟨m', hrun, fun a ha => hframe a (fun j _ hj2 => ha j hj2), fun idx hidx => ?_⟩
  have hp := hpat idx (by omega) hidx
  rwa [Nat.sub_zero] at hp

/-- Witness for `convert_pointers_to_branches_x64`: the S5 scenario —
a 4-element cycle at addresses 0, 16, 32, 48 (successors 16, 32, 48, 0
stored little-endian, all other bytes zero), effective chunk size 2. -/
theorem convert_pointers_to_branches_x64_witness :
    (1 ≤ 2 ∧ 2 ≤ [0, 16, 32, 48].length ∧
      (∀ idx, idx < [0, 16, 32, 48].length →
        ptrAt (fun a => if a = 0 then 16 else if a = 16 then 32 else if a = 32 then 48 else 0)
            (([0, 16, 32, 48] : List ℕ).getD idx 0)
          = ([0, 16, 32, 48] : List ℕ).getD ((idx + 1) % [0, 16, 32, 48].length) 0)) ∧
      (∃ m', convert_walk (([0, 16, 32, 48] : List ℕ).getD 0 0)
          (fun a => if a = 0 then 16 else if a = 16 then 32 else if a = 32 then 48 else 0)
          (([0, 16, 32, 48] : List ℕ).getD 0 0) ([0, 16, 32, 48] : List ℕ).length
          (([0, 16, 32, 48] : List ℕ).length / 2) 0 = some m' ∧
        (∀ a, (∀ j, j < ([0, 16, 32, 48] : List ℕ).length →
            a < ([0, 16, 32, 48] : List ℕ).getD j 0 ∨
              ([0, 16, 32, 48] : List ℕ).getD j 0 + 12 ≤ a) →
          m' a = (fun a => if a = 0 then 16 else if a = 16 then 32
            else if a = 32 then 48 else 0) a) ∧
        (∀ idx, idx < ([0, 16, 32, 48] : List ℕ).length →
          br_elem_pattern m' (([0, 16, 32, 48] : List ℕ).getD idx 0)
            (([0, 16, 32, 48] : List ℕ).getD ((idx + 1) % ([0, 16, 32, 48] : List ℕ).length) 0)
            ((chunk_flags ([0, 16, 32, 48] : List ℕ).length
              (([0, 16, 32, 48] : List ℕ).length / 2) 0).getD idx false))) :=
  ⟨⟨by decide, by decide, by decide⟩,
    convert_pointers_to_branches_x64
      (fun a => if a = 0 then 16 else if a = 16 then 32 else if a = 32 then 48 else 0)
      [0, 16, 32, 48] 2 (by decide) (by decide) (by decide) (by decide) (by decide)
      (by decide)⟩

end Multichase
